import Mathlib

/-!
Verification development for the AICA incident-update service
(`src/server/main.py`).  The Python source is shallowly embedded below:
strings are Lean `String`s (lists of characters), the regular expressions of
`sanitize_text` are hand-compiled into an executable backtracking matcher
with Python `re` semantics (leftmost match, greedy quantifiers, word
boundaries, case-insensitive literals), and the `/generate` handler is a
pure function from the request payload plus the process environment
(API-key presence, backend outcome, model name) to the response envelope
and the final state of the (mutated) payload dict.

Character classes follow the ASCII reading of Python's `\w`, `\s`, `\d`;
every character appearing in the claims and in the embedded rule patterns
is ASCII, so this agrees with Python on all inputs considered here.
-/

set_option maxRecDepth 8000

namespace AICA

/-- Python `\w` (word character), ASCII fragment: `[A-Za-z0-9_]`. -/
def isWordChar (c : Char) : Bool :=
  c.isAlphanum || c = '_'

/-- Python `\s` (whitespace), ASCII fragment: space, `\t`, `\n`, `\r`, `\x0b`, `\x0c`. -/
def isPySpace (c : Char) : Bool :=
  c = ' ' || c = '\t' || c = '\n' || c = '\r' || c = '\x0b' || c = '\x0c'

/-- Python `\d` (digit), ASCII fragment: `[0-9]`. -/
def isDigitCh (c : Char) : Bool :=
  c.isDigit

/-- Does `needle` occur at the very start of `hay`? -/
def headSubList : List Char → List Char → Bool
  | [], _ => true
  | _ :: _, [] => false
  | n :: ns, h :: hs => n = h && headSubList ns hs

/-- Does `needle` occur anywhere inside `hay` (Python's `in`, and
`re.search` for a literal pattern)? -/
def hasSubList (needle : List Char) : List Char → Bool
  | [] => headSubList needle []
  | c :: hs => headSubList needle (c :: hs) || hasSubList needle hs

/-- A matcher takes the reversed already-consumed text and the remaining
suffix and returns the possible `(reversed consumed, remaining)` states
after matching, in backtracking priority order (Python tries them first to
last).  The reversed consumed text carries the character context that word
boundaries (`\b`) consult. -/
abbrev M := List Char → List Char → List (List Char × List Char)

/-- Empty match (always succeeds, consumes nothing). -/
def mEps : M := fun l r => [(l, r)]

/-- Match one character satisfying the class `p`. -/
def mCls (p : Char → Bool) : M := fun l r =>
  match r with
  | [] => []
  | c :: rest => if p c then [(c :: l, rest)] else []

/-- Word boundary `\b`: succeeds without consuming when exactly one side of
the current position is a word character (a missing side counts as
non-word). -/
def mBound : M := fun l r =>
  let wl := match l.head? with | some c => isWordChar c | none => false
  let wr := match r.head? with | some c => isWordChar c | none => false
  if wl != wr then [(l, r)] else []

/-- Sequencing: all continuations of `a` are fed to `b`, preserving
backtracking priority. -/
def mSeq (a b : M) : M := fun l r =>
  (a l r).flatMap (fun x => b x.1 x.2)

/-- Alternation `a|b`: Python tries `a` before `b`. -/
def mAlt (a b : M) : M := fun l r =>
  a l r ++ b l r

/-- Greedy option `a?`: presence is tried before absence. -/
def mOpt (a : M) : M :=
  mAlt a mEps

/-- States reachable by consuming a run of class-`p` characters, listed by
run length ascending (0 consumed first). -/
def runStates (p : Char → Bool) : List Char → List Char → List (List Char × List Char)
  | l, [] => [(l, [])]
  | l, c :: rest =>
    (l, c :: rest) :: (if p c then runStates p (c :: l) rest else [])

/-- Greedy counted repetition of a one-character class: `p{lo,}` when
`hi = none`, `p{lo,hi}` otherwise.  Longest run first, as Python's greedy
quantifiers backtrack from the maximum. -/
def mRep (p : Char → Bool) (lo : Nat) (hi : Option Nat) : M := fun l r =>
  let sts := runStates p l r
  let sts := match hi with
             | some h => sts.take (h + 1)
             | none => sts
  (sts.drop lo).reverse

/-- Greedy one-or-more repetition of an arbitrary matcher, fuelled by the
input length (every iteration of the bodies used below consumes at least
one character, so the fuel never runs out on the patterns of the source). -/
def mPlusF (a : M) : Nat → M
  | 0 => a
  | fuel + 1 => fun l r =>
    (a l r).flatMap (fun x =>
      (if x.2.length < r.length then mPlusF a fuel x.1 x.2 else []) ++ [x])

/-- Greedy `(...)+` over a matcher body. -/
def mPlus (a : M) : M := fun l r =>
  mPlusF a (r.length + 1) l r

/-- Case-insensitive literal, for `re.IGNORECASE` on the letters of the
internal-id rule (classes in the rules are already closed under case). -/
def litCI : List Char → M
  | [] => mEps
  | c :: cs => mSeq (mCls (fun d => d.toLower = c.toLower)) (litCI cs)

/-- Leftmost match search: starting from context `l`/suffix `r`, return the
context at the first position where `m` matches, the suffix there, and the
suffix left after the (highest-priority) match — Python's `re.search`. -/
def searchFrom (m : M) : List Char → List Char → Option (List Char × List Char × List Char)
  | l, [] =>
    match m l [] with
    | x :: _ => some (l, [], x.2)
    | [] => none
  | l, c :: rest =>
    match m l (c :: rest) with
    | x :: _ => some (l, c :: rest, x.2)
    | [] => searchFrom m (c :: l) rest

/-- `re.search(pattern, s)` used as a Boolean test. -/
def re_search (m : M) (s : List Char) : Bool :=
  (searchFrom m [] s).isSome

/-- Work loop of `re.sub`: `out` is the reversed output built so far, `l`
the reversed original text already scanned (the `\b` context), `r` the
original suffix still to scan.  Matches never overlap and scanning resumes
right after each match, against the original characters. -/
def subLoop (m : M) (repl : List Char) : Nat → List Char → List Char → List Char → List Char
  | 0, out, _, r => out.reverse ++ r
  | fuel + 1, out, l, r =>
    match m l r with
    | x :: _ =>
      let len := r.length - x.2.length
      if len = 0 then
        match r with
        | [] => (repl.reverse ++ out).reverse
        | c :: rest => subLoop m repl fuel (c :: (repl.reverse ++ out)) (c :: l) rest
      else
        subLoop m repl fuel (repl.reverse ++ out) ((r.take len).reverse ++ l) x.2
    | [] =>
      match r with
      | [] => out.reverse
      | c :: rest => subLoop m repl fuel (c :: out) (c :: l) rest

/-- `re.sub(pattern, repl, s)`: replace every (non-overlapping, leftmost)
match of `m` in `s` by `repl`. -/
def re_sub (m : M) (repl : List Char) (s : List Char) : List Char :=
  subLoop m repl (s.length + 1) [] [] s

/-- Rule pattern `\b(?:\d{1,3}\.){3}\d{1,3}\b` (IPv4 shape). -/
def ip_matcher : M :=
  mSeq mBound
    (mSeq (mRep isDigitCh 1 (some 3)) (mSeq (mCls (fun c => c = '.'))
      (mSeq (mRep isDigitCh 1 (some 3)) (mSeq (mCls (fun c => c = '.'))
        (mSeq (mRep isDigitCh 1 (some 3)) (mSeq (mCls (fun c => c = '.'))
          (mSeq (mRep isDigitCh 1 (some 3)) mBound)))))))

/-- Class `[A-Za-z0-9._%+-]` (email local part). -/
def emailLocalCls (c : Char) : Bool :=
  c.isAlphanum || c = '.' || c = '_' || c = '%' || c = '+' || c = '-'

/-- Class `[A-Za-z0-9.-]` (email domain part). -/
def emailDomCls (c : Char) : Bool :=
  c.isAlphanum || c = '.' || c = '-'

/-- Rule pattern `[A-Za-z0-9._%+-]+@[A-Za-z0-9.-]+\.[A-Za-z]{2,}`. -/
def email_matcher : M :=
  mSeq (mRep emailLocalCls 1 none)
    (mSeq (mCls (fun c => c = '@'))
      (mSeq (mRep emailDomCls 1 none)
        (mSeq (mCls (fun c => c = '.'))
          (mRep (fun c => c.isAlpha) 2 none))))

/-- Class `[a-zA-Z0-9-]` (hostname label). -/
def hostCls (c : Char) : Bool :=
  c.isAlphanum || c = '-'

/-- Rule pattern `\b[a-zA-Z0-9-]+(?:\.[a-zA-Z0-9-]+)+\b`. -/
def host_matcher : M :=
  mSeq mBound
    (mSeq (mRep hostCls 1 none)
      (mSeq (mPlus (mSeq (mCls (fun c => c = '.')) (mRep hostCls 1 none)))
        mBound))

/-- Class `[A-Za-z0-9_-]` (internal-id body). -/
def idCls (c : Char) : Bool :=
  c.isAlphanum || c = '_' || c = '-'

/-- Rule pattern `\b(?:id|internal[-_ ]?id)[:# ]?\s*[A-Za-z0-9_-]{6,}\b`,
matched case-insensitively. -/
def internal_id_matcher : M :=
  mSeq mBound
    (mSeq (mAlt (litCI ['i', 'd'])
            (mSeq (litCI ['i', 'n', 't', 'e', 'r', 'n', 'a', 'l'])
              (mSeq (mOpt (mCls (fun c => c = '-' || c = '_' || c = ' ')))
                (litCI ['i', 'd']))))
      (mSeq (mOpt (mCls (fun c => c = ':' || c = '#' || c = ' ')))
        (mSeq (mRep isPySpace 0 none)
          (mSeq (mRep idCls 6 none) mBound))))

/-- One audit-trail entry, `{"token": ..., "action": ...}` in the source. -/
structure RedactionNote where
  token : String
  action : String
deriving DecidableEq

/-- Return value of `sanitize_text`: `{"text": ..., "notes": ...}`. -/
structure SanitizedText where
  text : String
  notes : List RedactionNote
deriving DecidableEq

/-- The ordered rule list of `sanitize_text`:
`(pattern, replacement, label)` triples. -/
def rules : List (M × String × String) :=
  [(ip_matcher, "[redacted-ip]", "ip"),
   (email_matcher, "[redacted-email]", "email"),
   (host_matcher, "[redacted-host]", "hostname"),
   (internal_id_matcher, "[redacted-id]", "internal-id")]

/-- Python `str.splitlines()` (ASCII separators `\n`, `\r`, `\r\n`, `\x0b`,
`\x0c`, `\x1c`, `\x1d`, `\x1e`; a trailing separator opens no new line). -/
def lineSepCh (c : Char) : Bool :=
  c = '\n' || c = '\r' || c = '\x0b' || c = '\x0c' ||
  c = '\x1c' || c = '\x1d' || c = '\x1e'

/-- Split into lines the way `str.splitlines()` does. -/
def splitlinesPy : List Char → List (List Char)
  | [] => []
  | '\r' :: '\n' :: tl => [] :: splitlinesPy tl
  | c :: tl =>
    if lineSepCh c then [] :: splitlinesPy tl
    else
      match splitlinesPy tl with
      | [] => [[c]]
      | ln :: rest => (c :: ln) :: rest

/-- The line filter regex
`Traceback|Exception|Error:| at \\/| at \\\\|Caused by:` is an alternation
of six literals (in the raw pattern string, `\\` matches one literal
backslash, so the fourth and fifth alternatives are the literal texts
` at \/` and ` at \\`); as a Boolean test it holds iff some alternative is
a substring of the line. -/
def stack_line_hit (line : List Char) : Bool :=
  hasSubList "Traceback".data line || hasSubList "Exception".data line ||
  hasSubList "Error:".data line || hasSubList " at \\/".data line ||
  hasSubList " at \\\\".data line || hasSubList "Caused by:".data line

/-- `sanitize_text` from the source: run the four redaction rules in order
against the progressively redacted text (one note per rule that fired),
then drop the lines the stack-trace filter recognizes (one note per
dropped line) and rejoin the remaining lines with `\n`. -/
def sanitize_text (text : String) : SanitizedText :=
  let step := fun (acc : List Char × List RedactionNote) (rule : M × String × String) =>
    if re_search rule.1 acc.1 then
      (re_sub rule.1 rule.2.1.data acc.1, acc.2 ++ [⟨rule.2.2, "redacted"⟩])
    else acc
  let redacted := rules.foldl step (text.data, [])
  let filtered := (splitlinesPy redacted.1).foldl
    (fun (acc : List (List Char) × List RedactionNote) line =>
      if stack_line_hit line then (acc.1, acc.2 ++ [⟨"stack-trace-line", "removed"⟩])
      else (acc.1 ++ [line], acc.2))
    ([], redacted.2)
  { text := String.mk (List.intercalate ['\n'] filtered.1), notes := filtered.2 }

/-- The module-level `SEVERITY_CADENCE` dict. -/
def SEVERITY_CADENCE (key : String) : Option String :=
  if key = "SEV1" then some "30 minutes"
  else if key = "SEV2" then some "60 minutes"
  else if key = "SEV3" then some "2 hours"
  else if key = "SEV4" then some "daily or on meaningful change"
  else none

/-- Python `str.upper()` (ASCII characters, which covers every severity
value compared against the cadence table). -/
def pyUpper (s : String) : String :=
  String.mk (s.data.map Char.toUpper)

/-- Python `str.lower()` (ASCII characters). -/
def pyLower (s : String) : String :=
  String.mk (s.data.map Char.toLower)

/-- `default_cadence`: `SEVERITY_CADENCE.get(severity.upper(), "60 minutes")`. -/
def default_cadence (severity : String) : String :=
  (SEVERITY_CADENCE (pyUpper severity)).getD "60 minutes"

/-- Python `x or y` for an optional string `x`: `y` when the key is absent
or its value is the (falsy) empty string. -/
def pyOr (o : Option String) (d : String) : String :=
  match o with
  | some s => if s = "" then d else s
  | none => d

/-- Python `str.strip()` (ASCII whitespace). -/
def pyStrip (s : String) : String :=
  String.mk (((s.data.dropWhile isPySpace).reverse.dropWhile isPySpace).reverse)

/-- The request payload: the JSON body of `POST /generate`, one optional
string per key the handler reads (`None` = key absent). -/
structure Payload where
  summary : Option String := none
  impact : Option String := none
  mitigation : Option String := none
  severity : Option String := none
  next_update : Option String := none
  stage : Option String := none
deriving DecidableEq

/-- `try_llm_generate`, with the external OpenAI call abstracted:
`api_key_set` is the presence of `OPENAI_API_KEY`, `backendText` the text
the backend produced (`none` when the import or the call raised — the
bare `except` turns any exception into `{}`).  The extraction, strip and
empty check are the source's own lines: non-empty stripped text is
returned for the `standard` slot, anything else yields `{}` (`none`). -/
def try_llm_generate (api_key_set : Bool) (backendText : Option String) : Option String :=
  if !api_key_set then none
  else
    match backendText with
    | none => none
    | some raw =>
      let text := pyStrip raw
      if text = "" then none else some text

/-- The `templated` closure inside `generate`, applied to the values it
reads from the enclosing scope (the payload fields it uses have already
been overwritten with sanitized text by the time it runs). -/
def templated (mitigation impact severity next_update summary : String)
    (style : String) : String :=
  let base := "We are " ++ mitigation ++ " an issue impacting " ++ impact ++
    ". Severity: " ++ severity ++ ". Next update in " ++ next_update ++
    ". Summary: " ++ pyStrip summary
  if style = "short" then base
  else if style = "standard" then
    base ++ " We will provide further details as they are verified."
  else
    base ++ " Resolution steps are underway; we will share a full summary post-resolution."

/-- Export bundle: `{"statuspage": ..., "email": ...}`. -/
structure Exports where
  statuspage : String
  email : String
deriving DecidableEq

/-- `format_templates`: stage-dependent title and subject, blank line,
draft text, blank line, next-update line; the statuspage rendering is the
character slice `[:2000]` of the joined text, the email is unsliced. -/
def format_templates (stage text next_update : String) : Exports :=
  let title :=
    if stage = "initial" then "Service Degradation – Update"
    else if stage = "resolution" then "Incident Resolved – Summary"
    else "Incident Update – Progress"
  let email_subject :=
    if stage = "initial" then "[Incident] Initial Notice"
    else if stage = "resolution" then "[Incident] Resolved"
    else "[Incident] Update"
  let sp := [title, "", text, "", "Next update: " ++ next_update]
  let em := [email_subject, "", text, "", "Next update: " ++ next_update]
  { statuspage := String.mk ((List.intercalate ['\n'] (sp.map String.data)).take 2000),
    email := String.mk (List.intercalate ['\n'] (em.map String.data)) }

/-- The response envelope returned by `POST /generate`. -/
structure GenerateResponse where
  drafts_short : String
  drafts_standard : String
  drafts_detailed : String
  exports : Exports
  guardrails_notes : List RedactionNote
  guardrails_blocked : Bool
  meta_severity : String
  meta_next_update : String
  meta_stage : String
  meta_llm_mode : String
  meta_llm_used : Bool
  meta_llm_model : Option String
deriving DecidableEq

/-- The `generate` handler.  Besides the payload it takes the three
environment facts the source reads (`OPENAI_API_KEY` presence, the
abstract backend outcome, `OPENAI_MODEL`); it returns the response
envelope together with the final state of the payload dict, which the
source mutates in place (`payload[f] = redacted["text"]`). -/
def generate (api_key_set : Bool) (backendText : Option String)
    (model_env : Option String) (payload : Payload) :
    GenerateResponse × Payload :=
  let stage := pyLower (pyOr payload.stage "ongoing")
  let severity := payload.severity.getD "SEV3"
  let next_update := pyOr payload.next_update (default_cadence severity)
  let sanSummary := sanitize_text (payload.summary.getD "")
  let sanImpact := sanitize_text (payload.impact.getD "")
  let payload := { payload with summary := some sanSummary.text,
                                impact := some sanImpact.text }
  let redaction_notes := sanSummary.notes ++ sanImpact.notes
  let llm_out := try_llm_generate api_key_set backendText
  let llm_mode := if api_key_set then "openai" else "template"
  let llm_used := llm_out.isSome
  let tmpl := fun style => templated (payload.mitigation.getD "investigating")
    (payload.impact.getD "unspecified scope") severity next_update
    (payload.summary.getD "") style
  let drafts_short := tmpl "short"
  let drafts_standard := match llm_out with
                         | some t => t
                         | none => tmpl "standard"
  let drafts_detailed := tmpl "detailed"
  let exports := format_templates stage drafts_standard next_update
  (⟨drafts_short, drafts_standard, drafts_detailed, exports,
    redaction_notes, false, severity, next_update, stage, llm_mode,
    llm_used, if llm_used then model_env else none⟩,
   payload)

/-- Characters an IPv4-shaped match is made of: a dot or a digit.  Used to
reason about which substitutions can create or destroy IPv4 shapes. -/
def coreChar (c : Char) : Bool :=
  c = '.' || isDigitCh c

/-- The interior skeleton every IPv4-shaped match contains: a dot, a
nonempty digit run, a dot, a nonempty digit run, a dot (the second and
third octets of the quad together with their three separating dots). -/
def IpCore (w : List Char) : Prop :=
  ∃ A B, w = '.' :: A ++ '.' :: B ++ ['.'] ∧ A ≠ [] ∧ B ≠ []
    ∧ (∀ c ∈ A, isDigitCh c = true) ∧ (∀ c ∈ B, isDigitCh c = true)

/-- `s` contains an IPv4 interior skeleton as a substring. -/
def HasIpCore (s : List Char) : Prop :=
  ∃ u w v, s = u ++ w ++ v ∧ IpCore w

/-- Every result of a matcher is a suffix-remainder: the consumed text is
an initial segment of the input and lands reversed on the context. -/
def MSuffix (m : M) : Prop :=
  ∀ l r x, x ∈ m l r → ∃ w, r = w ++ x.2 ∧ x.1 = w.reverse ++ l

/-- Invariant of the hostname-substitution scan: every all-`coreChar`
prefix of the (reversed) output accumulator consists of recently skipped
characters, so it is also a prefix of the reversed original context, and
the hostname matcher failed at the original position of its oldest
character. -/
def HostInv (out l r : List Char) : Prop :=
  ∀ u v, out = u ++ v → (∀ c ∈ u, coreChar c = true) →
    ∃ l₂, l = u ++ l₂ ∧ (u = [] ∨ host_matcher l₂ (u.reverse ++ r) = [])

/-- Invariant of a generic substitution scan: every all-`coreChar` prefix
of the (reversed) output accumulator is also a prefix of the reversed
original context. -/
def SkipInv (out l : List Char) : Prop :=
  ∀ u v, out = u ++ v → (∀ c ∈ u, coreChar c = true) → ∃ l₂, l = u ++ l₂

/-! ### Helper lemmas (shared across the claim theorems) -/

theorem headSubList_iff {n h : List Char} :
    headSubList n h = true ↔ ∃ b, h = n ++ b := by
  induction n generalizing h with
  | nil => simp [headSubList]
  | cons c cs ih =>
    cases h with
    | nil => simp [headSubList]
    | cons d ds =>
      simp only [headSubList, Bool.and_eq_true, decide_eq_true_eq, ih]
      constructor
      · rintro ⟨rfl, b, rfl⟩
        exact ⟨b, rfl⟩
      · rintro ⟨b, hb⟩
        injection hb with h1 h2
        exact ⟨h1.symm, b, h2⟩

theorem hasSubList_iff {n h : List Char} :
    hasSubList n h = true ↔ ∃ a b, h = a ++ n ++ b := by
  induction h with
  | nil =>
    simp only [hasSubList, headSubList_iff]
    constructor
    · rintro ⟨b, hb⟩
      exact ⟨[], b, by simpa using hb⟩
    · rintro ⟨a, b, hab⟩
      have ha : a = [] := by
        cases a with
        | nil => rfl
        | cons x xs => simp at hab
      subst ha
      exact ⟨b, by simpa using hab⟩
  | cons c hs ih =>
    simp only [hasSubList, Bool.or_eq_true, headSubList_iff, ih]
    constructor
    · rintro (⟨b, hb⟩ | ⟨a, b, hab⟩)
      · exact ⟨[], b, by simpa using hb⟩
      · exact ⟨c :: a, b, by simp [hab]⟩
    · rintro ⟨a, b, hab⟩
      cases a with
      | nil => exact Or.inl ⟨b, by simpa using hab⟩
      | cons x xs =>
        injection hab with h1 h2
        exact Or.inr ⟨xs, b, h2⟩

/-- A substring occurrence is built directly from an append decomposition. -/
theorem hasSubList_of_append {n a b h : List Char} (hh : h = a ++ n ++ b) :
    hasSubList n h = true :=
  hasSubList_iff.mpr ⟨a, b, hh⟩

/-- Every character of a substring occurs in the containing string. -/
theorem mem_of_hasSubList {n h : List Char} {c : Char}
    (hs : hasSubList n h = true) (hc : c ∈ n) : c ∈ h := by
  rcases hasSubList_iff.mp hs with ⟨a, b, rfl⟩
  simp [hc]

/-- The stack-trace filtering loop of `sanitize_text`, in closed form:
it keeps exactly the lines the filter does not hit (in order) and appends
one `removed` note per hit line. -/
theorem lines_foldl_eq (ls : List (List Char)) (acc : List (List Char))
    (ns : List RedactionNote) :
    ls.foldl
      (fun (acc : List (List Char) × List RedactionNote) line =>
        if stack_line_hit line then (acc.1, acc.2 ++ [⟨"stack-trace-line", "removed"⟩])
        else (acc.1 ++ [line], acc.2)) (acc, ns)
    = (acc ++ ls.filter (fun l => !stack_line_hit l),
       ns ++ List.replicate (ls.countP stack_line_hit) ⟨"stack-trace-line", "removed"⟩) := by
  induction ls generalizing acc ns with
  | nil => simp
  | cons hd tl ih =>
    by_cases h : stack_line_hit hd
    · simp [h, ih, List.replicate_succ, List.append_assoc]
    · simp [h, ih, List.append_assoc]

/-- Push the `if` of one redaction-rule step through the pair it builds. -/
theorem ite_rule_split {c : Prop} [Decidable c]
    (x : List Char × List RedactionNote) (y : List Char) (nn : RedactionNote) :
    (if c then (y, x.2 ++ [nn]) else x)
      = (if c then y else x.1, x.2 ++ if c then [nn] else []) := by
  by_cases h : c <;> simp [h]

/-- `sanitize_text`, unrolled: the four rules run in their fixed order
against the progressively redacted text, each firing rule contributing a
global substitution and exactly one note; then the line filter drops its
lines, one note each, and the rest are rejoined. -/
theorem sanitize_text_eq (t : String) :
    sanitize_text t =
      (let s1 := if re_search ip_matcher t.data
                 then re_sub ip_matcher "[redacted-ip]".data t.data else t.data
       let s2 := if re_search email_matcher s1
                 then re_sub email_matcher "[redacted-email]".data s1 else s1
       let s3 := if re_search host_matcher s2
                 then re_sub host_matcher "[redacted-host]".data s2 else s2
       let s4 := if re_search internal_id_matcher s3
                 then re_sub internal_id_matcher "[redacted-id]".data s3 else s3
       { text := String.mk (List.intercalate ['\n']
           ((splitlinesPy s4).filter (fun l => !stack_line_hit l))),
         notes :=
           (if re_search ip_matcher t.data then [⟨"ip", "redacted"⟩] else [])
           ++ (if re_search email_matcher s1 then [⟨"email", "redacted"⟩] else [])
           ++ (if re_search host_matcher s2 then [⟨"hostname", "redacted"⟩] else [])
           ++ (if re_search internal_id_matcher s3 then [⟨"internal-id", "redacted"⟩] else [])
           ++ List.replicate ((splitlinesPy s4).countP stack_line_hit)
                ⟨"stack-trace-line", "removed"⟩ } : SanitizedText) := by
  unfold sanitize_text rules
  simp only [List.foldl_cons, List.foldl_nil, ite_rule_split, lines_foldl_eq]
  simp [List.append_assoc]

/-- A substring of the right part of an append is a substring of the whole. -/
theorem hasSubList_append_of_right {n y : List Char} (x : List Char)
    (hy : hasSubList n y = true) : hasSubList n (x ++ y) = true := by
  rcases hasSubList_iff.mp hy with ⟨a, b, rfl⟩
  exact hasSubList_iff.mpr ⟨x ++ a, b, by simp [List.append_assoc]⟩

/-- A substring of the left part of an append is a substring of the whole. -/
theorem hasSubList_append_of_left {n x : List Char} (y : List Char)
    (hx : hasSubList n x = true) : hasSubList n (x ++ y) = true := by
  rcases hasSubList_iff.mp hx with ⟨a, b, rfl⟩
  exact hasSubList_iff.mpr ⟨a, b ++ y, by simp [List.append_assoc]⟩

/-- Every list contains itself as a substring. -/
theorem hasSubList_self (n : List Char) : hasSubList n n = true :=
  hasSubList_iff.mpr ⟨[], [], by simp⟩

/-- `"\n".join` of a five-element list, as plain appends. -/
theorem intercalate_five (s a b c d e : List Char) :
    List.intercalate s [a, b, c, d, e]
      = a ++ (s ++ (b ++ (s ++ (c ++ (s ++ (d ++ (s ++ e))))))) := by
  simp [List.intercalate, List.intersperse]

/-- A substring of a list that is not cut by a `take` is a substring of the
truncation (the `min` bound witnesses that the list was within the cap). -/
theorem hasSubList_take_of_min_lt {n l : List Char} {k : Nat}
    (hlt : min k l.length < k) (h : hasSubList n l = true) :
    hasSubList n (l.take k) = true := by
  have hle : l.length ≤ k := by omega
  rw [List.take_of_length_le hle]
  exact h

/-- A substring of the middle element of a five-part append is a substring
of the whole. -/
theorem hasSubList_mid5 {n m : List Char} (s1 s2 s3 s4 : List Char)
    (h : hasSubList n m = true) :
    hasSubList n (s1 ++ s2 ++ m ++ s3 ++ s4) = true := by
  rcases hasSubList_iff.mp h with ⟨a, b, rfl⟩
  exact hasSubList_iff.mpr ⟨s1 ++ s2 ++ a, b ++ s3 ++ s4, by simp [List.append_assoc]⟩

/-- The email rendering of `format_templates` in closed form: subject,
blank line, draft text, blank line, next-update line — with no cap. -/
theorem format_templates_email_data (st tx nu : String) :
    (format_templates st tx nu).email.data
      = (if st = "initial" then ("[Incident] Initial Notice" : String)
         else if st = "resolution" then "[Incident] Resolved"
         else "[Incident] Update").data
        ++ ['\n', '\n'] ++ tx.data ++ ['\n', '\n'] ++ ("Next update: " ++ nu).data := by
  show (String.mk _).data = _
  simp only [List.map_cons, List.map_nil]
  rw [intercalate_five]
  by_cases h1 : st = "initial"
  · simp [h1, String.data_append, List.append_assoc]
  · by_cases h2 : st = "resolution" <;> simp [h1, h2, String.data_append, List.append_assoc]

/-- The statuspage rendering of `format_templates` in closed form: title,
blank line, draft text, blank line, next-update line, cut at 2000
characters. -/
theorem format_templates_statuspage_data (st tx nu : String) :
    (format_templates st tx nu).statuspage.data
      = ((if st = "initial" then ("Service Degradation – Update" : String)
          else if st = "resolution" then "Incident Resolved – Summary"
          else "Incident Update – Progress").data
         ++ ['\n', '\n'] ++ tx.data ++ ['\n', '\n'] ++ ("Next update: " ++ nu).data).take 2000 := by
  show (String.mk _).data = _
  simp only [List.map_cons, List.map_nil]
  rw [intercalate_five]
  by_cases h1 : st = "initial"
  · simp [h1, String.data_append, List.append_assoc]
  · by_cases h2 : st = "resolution" <;> simp [h1, h2, String.data_append, List.append_assoc]

/-- Every draft built by the `templated` closure embeds the mitigation
value verbatim, right after the leading "We are ". -/
theorem templated_contains_mitigation (mit impact sev nu sum style : String) :
    hasSubList mit.data (templated mit impact sev nu sum style).data = true := by
  unfold templated
  refine hasSubList_iff.mpr ⟨"We are ".data,
    (" an issue impacting " ++ impact ++ ". Severity: " ++ sev ++ ". Next update in "
      ++ nu ++ ". Summary: " ++ pyStrip sum).data
    ++ (if style = "short" then ("" : String)
        else if style = "standard" then " We will provide further details as they are verified."
        else " Resolution steps are underway; we will share a full summary post-resolution.").data,
    ?_⟩
  by_cases h1 : style = "short"
  · simp [h1, String.data_append, List.append_assoc]
  · by_cases h2 : style = "standard" <;> simp [h1, h2, String.data_append, List.append_assoc]

/-! ### The IPv4 interior skeleton and its behaviour under appends -/

theorem append_singleton_inj {l1 l2 : List Char} {a b : Char}
    (h : l1 ++ [a] = l2 ++ [b]) : l1 = l2 ∧ a = b := by
  have h2 := congrArg List.reverse h
  simp at h2
  exact ⟨h2.2, h2.1⟩

theorem mem_coreChar_of_IpCore {w : List Char} (h : IpCore w) :
    ∀ c ∈ w, coreChar c = true := by
  rcases h with ⟨A, B, rfl, _, _, hA, hB⟩
  intro c hc
  rcases List.mem_append.mp hc with h1 | h1
  · rcases List.mem_append.mp h1 with h2 | h2
    · rcases List.mem_cons.mp h2 with rfl | h3
      · simp [coreChar]
      · simp [coreChar, hA c h3]
    · rcases List.mem_cons.mp h2 with rfl | h3
      · simp [coreChar]
      · simp [coreChar, hB c h3]
  · rcases List.mem_singleton.mp h1 with rfl
    simp [coreChar]

theorem IpCore.ne_nil {w : List Char} (h : IpCore w) : w ≠ [] := by
  rcases h with ⟨A, B, rfl, _, _, _, _⟩
  simp

theorem IpCore.three_le_length {w : List Char} (h : IpCore w) : 3 ≤ w.length := by
  rcases h with ⟨A, B, rfl, _, _, _, _⟩
  simp [List.length_append]
  omega

theorem hasIpCore_append_left {y : List Char} (x : List Char) (h : HasIpCore y) :
    HasIpCore (x ++ y) := by
  rcases h with ⟨u, w, v, rfl, hw⟩
  exact ⟨x ++ u, w, v, by simp [List.append_assoc], hw⟩

theorem hasIpCore_append_right {x : List Char} (y : List Char) (h : HasIpCore x) :
    HasIpCore (x ++ y) := by
  rcases h with ⟨u, w, v, rfl, hw⟩
  exact ⟨u, w, v ++ y, by simp [List.append_assoc], hw⟩

theorem not_hasIpCore_nil : ¬ HasIpCore ([] : List Char) := by
  rintro ⟨u, w, v, h, hw⟩
  have hl := congrArg List.length h
  have h3 := hw.three_le_length
  simp [List.length_append] at hl
  omega

theorem not_hasIpCore_singleton (c : Char) : ¬ HasIpCore [c] := by
  rintro ⟨u, w, v, h, hw⟩
  have hl := congrArg List.length h
  have h3 := hw.three_le_length
  simp [List.length_append] at hl
  omega

theorem hasIpCore_cons_elim {c : Char} {s : List Char}
    (h : HasIpCore (c :: s)) (hc : coreChar c = false) : HasIpCore s := by
  rcases h with ⟨u, w, v, heq, hw⟩
  cases u with
  | nil =>
    exfalso
    rcases hw with ⟨A, B, hwe, _, _, _, _⟩
    subst hwe
    simp only [List.nil_append, List.cons_append, List.append_assoc] at heq
    have : c = '.' := by
      injection heq with h1 _
    subst this
    simp [coreChar] at hc
  | cons u0 u' =>
    simp only [List.cons_append, List.append_assoc] at heq
    injection heq with _ h2
    exact ⟨u', w, v, by simp [List.append_assoc, h2], hw⟩

theorem not_hasIpCore_of_no_coreChar {s : List Char}
    (h : ∀ c ∈ s, coreChar c = false) : ¬ HasIpCore s := by
  rintro ⟨u, w, v, rfl, hw⟩
  have hdot : ('.' : Char) ∈ w := by
    rcases hw with ⟨A, B, rfl, _, _, _, _⟩
    simp
  have : coreChar '.' = false := h '.' (by simp [hdot])
  simp [coreChar] at this

/-- A core inside an append lies in the left part, in the right part, or
spans the boundary with a nonempty piece on each side. -/
theorem hasIpCore_splice {x y : List Char} (h : HasIpCore (x ++ y)) :
    HasIpCore x ∨ HasIpCore y ∨
    ∃ q p, q ≠ [] ∧ p ≠ [] ∧ IpCore (q ++ p)
      ∧ (∃ x₁, x = x₁ ++ q) ∧ (∃ y₂, y = p ++ y₂) := by
  rcases h with ⟨u, w, v, heq, hw⟩
  rw [List.append_assoc] at heq
  rcases List.append_eq_append_iff.mp heq.symm with ⟨e, he1, he2⟩ | ⟨e, he1, he2⟩
  · -- x = u ++ e and w ++ v = e ++ y
    rcases List.append_eq_append_iff.mp he2 with ⟨f, hf1, hf2⟩ | ⟨f, hf1, hf2⟩
    · -- e = w ++ f and v = f ++ y : the whole core is inside x
      left
      exact ⟨u, w, f, by rw [he1, hf1, List.append_assoc], hw⟩
    · -- w = e ++ f and y = f ++ v
      cases he : e with
      | nil =>
        right; left
        subst he
        simp only [List.nil_append] at hf1
        exact ⟨[], w, v, by simp [hf1, hf2], hw⟩
      | cons e0 e' =>
        cases hf : f with
        | nil =>
          left
          subst hf
          simp only [List.append_nil] at hf1
          exact ⟨u, w, [], by simp [he1, hf1], hw⟩
        | cons f0 f' =>
          right; right
          refine ⟨e, f, by simp [he], by simp [hf], by rw [← hf1]; exact hw,
            ⟨u, he1⟩, ⟨v, hf2⟩⟩
  · -- u = x ++ e and y = e ++ (w ++ v) : the whole core is inside y
    right; left
    exact ⟨e, w, v, by rw [he2, List.append_assoc], hw⟩

/-- Appending one character to a clean string creates a core only when the
character is a dot completing a pending `.A.B` suffix. -/
theorem hasIpCore_append_singleton {x : List Char} {c : Char}
    (h : HasIpCore (x ++ [c])) :
    HasIpCore x ∨ (c = '.' ∧ ∃ u A B, x = u ++ ('.' :: A) ++ ('.' :: B) ∧ A ≠ [] ∧ B ≠ []
      ∧ (∀ d ∈ A, isDigitCh d = true) ∧ (∀ d ∈ B, isDigitCh d = true)) := by
  rcases hasIpCore_splice h with hx | hy | ⟨q, p, hq, hp, hcore, ⟨x₁, hx1⟩, ⟨y₂, hy2⟩⟩
  · exact Or.inl hx
  · exact absurd hy (not_hasIpCore_singleton c)
  · -- p is a nonempty prefix of [c], so p = [c] and the core ends at c
    have hpc : p = [c] := by
      cases p with
      | nil => simp at hp
      | cons p0 p' =>
        cases p' with
        | nil =>
          injection hy2 with h1 _
          rw [h1]
        | cons p1 p'' => simp at hy2
    subst hpc
    rcases hcore with ⟨A, B, hqe, hA0, hB0, hA, hB⟩
    obtain ⟨hq2, hc⟩ := append_singleton_inj hqe
    exact Or.inr ⟨hc, x₁, A, B, by rw [hx1, hq2, List.append_assoc], hA0, hB0, hA, hB⟩

/-! ### Membership, suffix and consumption lemmas for the matcher combinators -/

theorem mSeq_elim {a b : M} {l r : List Char} {x : List Char × List Char}
    (h : x ∈ mSeq a b l r) : ∃ y ∈ a l r, x ∈ b y.1 y.2 := by
  simpa [mSeq, List.mem_flatMap] using h

theorem mSeq_intro {a b : M} {l r : List Char} {y x : List Char × List Char}
    (hy : y ∈ a l r) (hx : x ∈ b y.1 y.2) : x ∈ mSeq a b l r := by
  simp only [mSeq, List.mem_flatMap]
  exact ⟨y, hy, hx⟩

theorem mAlt_elim {a b : M} {l r : List Char} {x : List Char × List Char}
    (h : x ∈ mAlt a b l r) : x ∈ a l r ∨ x ∈ b l r := by
  simpa [mAlt] using h

theorem mEps_elim {l r : List Char} {x : List Char × List Char}
    (h : x ∈ mEps l r) : x = (l, r) := by
  simpa [mEps] using h

theorem mBound_elim {l r : List Char} {x : List Char × List Char}
    (h : x ∈ mBound l r) : x = (l, r) := by
  simp only [mBound] at h
  split at h
  · simpa using h
  · simp at h

theorem mBound_intro {l r : List Char}
    (h : (match l.head? with | some c => isWordChar c | none => false)
       ≠ (match r.head? with | some c => isWordChar c | none => false)) :
    (l, r) ∈ mBound l r := by
  simp only [mBound]
  rw [if_pos (by simpa [bne_iff_ne] using h)]
  simp

theorem mCls_elim {p : Char → Bool} {l r : List Char} {x : List Char × List Char}
    (h : x ∈ mCls p l r) :
    ∃ c rest, r = c :: rest ∧ p c = true ∧ x = (c :: l, rest) := by
  unfold mCls at h
  cases r with
  | nil => simp at h
  | cons c rest =>
    by_cases hc : p c = true
    · simp only [hc, if_true, List.mem_singleton] at h
      exact ⟨c, rest, rfl, hc, h⟩
    · simp [hc] at h

theorem mCls_intro {p : Char → Bool} {l rest : List Char} {c : Char}
    (hc : p c = true) : (c :: l, rest) ∈ mCls p l (c :: rest) := by
  simp [mCls, hc]

theorem runStates_mem {p : Char → Bool} (w : List Char) :
    ∀ (l rest : List Char), (∀ c ∈ w, p c = true) →
    (w.reverse ++ l, rest) ∈ runStates p l (w ++ rest) := by
  induction w with
  | nil =>
    intro l rest _
    cases rest with
    | nil => simp [runStates]
    | cons c t => simp [runStates]
  | cons a w' ih =>
    intro l rest hw
    have ha : p a = true := hw a (by simp)
    have hmem := ih (a :: l) rest (fun c hc => hw c (by simp [hc]))
    simp only [List.cons_append, runStates, ha, if_true]
    refine List.mem_cons_of_mem _ ?_
    simpa [List.append_assoc] using hmem

theorem runStates_split {p : Char → Bool} (w : List Char) :
    ∀ (l t : List Char), (∀ c ∈ w, p c = true) →
    ∃ pre, runStates p l (w ++ t) = pre ++ runStates p (w.reverse ++ l) t
      ∧ pre.length = w.length := by
  induction w with
  | nil => intro l t _; exact ⟨[], by simp, rfl⟩
  | cons a w' ih =>
    intro l t hw
    have ha : p a = true := hw a (by simp)
    obtain ⟨pre', heq, hlen⟩ := ih (a :: l) t (fun c hc => hw c (by simp [hc]))
    refine ⟨(l, a :: (w' ++ t)) :: pre', ?_, by simp [hlen]⟩
    simp only [List.cons_append, runStates, ha, if_true, List.append_eq]
    rw [heq]
    simp [List.append_assoc]

theorem runStates_elim {p : Char → Bool} :
    ∀ (r l : List Char) (x : List Char × List Char), x ∈ runStates p l r →
    ∃ w rest, r = w ++ rest ∧ (∀ c ∈ w, p c = true) ∧ x = (w.reverse ++ l, rest) := by
  intro r
  induction r with
  | nil =>
    intro l x h
    simp only [runStates, List.mem_singleton] at h
    exact ⟨[], [], rfl, by simp, by simp [h]⟩
  | cons c t ih =>
    intro l x h
    simp only [runStates] at h
    rcases List.mem_cons.mp h with rfl | h2
    · exact ⟨[], c :: t, rfl, by simp, by simp⟩
    · by_cases hc : p c = true
      · rw [if_pos hc] at h2
        obtain ⟨w', rest, ht, hw', hx⟩ := ih (c :: l) x h2
        exact ⟨c :: w', rest, by simp [ht], by simpa [hc] using hw',
          by simp [hx, List.append_assoc]⟩
      · simp [hc] at h2

theorem runStates_drop_elim {p : Char → Bool} :
    ∀ (lo : Nat) (r l : List Char) (x : List Char × List Char),
    x ∈ (runStates p l r).drop lo →
    ∃ w rest, r = w ++ rest ∧ (∀ c ∈ w, p c = true) ∧ lo ≤ w.length
      ∧ x = (w.reverse ++ l, rest) := by
  intro lo
  induction lo with
  | zero =>
    intro r l x h
    simp only [List.drop_zero] at h
    obtain ⟨w, rest, h1, h2, h3⟩ := runStates_elim r l x h
    exact ⟨w, rest, h1, h2, Nat.zero_le _, h3⟩
  | succ lo ih =>
    intro r l x h
    cases r with
    | nil => simp [runStates, List.drop] at h
    | cons c t =>
      simp only [runStates] at h
      rw [List.drop_succ_cons] at h
      by_cases hc : p c = true
      · rw [if_pos hc] at h
        obtain ⟨w', rest, ht, hw', hlo, hx⟩ := ih t (c :: l) x h
        exact ⟨c :: w', rest, by simp [ht], by simpa [hc] using hw',
          by simpa using Nat.succ_le_succ hlo, by simp [hx, List.append_assoc]⟩
      · simp [hc] at h

theorem mRep_elim {p : Char → Bool} {lo : Nat} {hi : Option Nat}
    {l r : List Char} {x : List Char × List Char} (h : x ∈ mRep p lo hi l r) :
    ∃ w rest, r = w ++ rest ∧ (∀ c ∈ w, p c = true) ∧ lo ≤ w.length
      ∧ x = (w.reverse ++ l, rest) := by
  simp only [mRep] at h
  rw [List.mem_reverse] at h
  cases hi with
  | none => exact runStates_drop_elim lo r l x h
  | some hh =>
    rw [List.drop_take] at h
    exact runStates_drop_elim lo r l x (List.mem_of_mem_take h)

theorem mRep_intro_none {p : Char → Bool} {lo : Nat} (w : List Char)
    (l rest : List Char) (hw : ∀ c ∈ w, p c = true) (hlo : lo ≤ w.length) :
    (w.reverse ++ l, rest) ∈ mRep p lo none l (w ++ rest) := by
  simp only [mRep]
  rw [List.mem_reverse]
  have hsplit : w = w.take lo ++ w.drop lo := (List.take_append_drop lo w).symm
  have htk : ∀ c ∈ w.take lo, p c = true := fun c hc => hw c (List.mem_of_mem_take hc)
  have hdr : ∀ c ∈ w.drop lo, p c = true := fun c hc => hw c (List.mem_of_mem_drop hc)
  obtain ⟨pre, heq, hlen⟩ := runStates_split (w.take lo) l ((w.drop lo) ++ rest) htk
  have hlentk : (w.take lo).length = lo := by
    rw [List.length_take]
    omega
  rw [show w ++ rest = w.take lo ++ ((w.drop lo) ++ rest) by
    rw [← List.append_assoc, List.take_append_drop]]
  rw [heq]
  rw [List.drop_left' (by rw [hlen, hlentk])]
  have hmem := runStates_mem (w.drop lo) ((w.take lo).reverse ++ l) rest hdr
  have hrw : (w.drop lo).reverse ++ ((w.take lo).reverse ++ l) = w.reverse ++ l := by
    rw [← List.append_assoc, ← List.reverse_append, List.take_append_drop]
  rw [hrw] at hmem
  exact hmem

theorem mPlus_intro_one {a : M} {l r : List Char} {x : List Char × List Char}
    (hx : x ∈ a l r) : x ∈ mPlus a l r := by
  simp only [mPlus, mPlusF, List.mem_flatMap]
  exact ⟨x, hx, by simp⟩

theorem msuffix_mEps : MSuffix mEps := by
  intro l r x h
  rw [mEps_elim h]
  exact ⟨[], by simp, by simp⟩

theorem msuffix_mBound : MSuffix mBound := by
  intro l r x h
  rw [mBound_elim h]
  exact ⟨[], by simp, by simp⟩

theorem msuffix_mCls (p : Char → Bool) : MSuffix (mCls p) := by
  intro l r x h
  obtain ⟨c, rest, rfl, _, rfl⟩ := mCls_elim h
  exact ⟨[c], by simp, by simp⟩

theorem msuffix_mRep (p : Char → Bool) (lo : Nat) (hi : Option Nat) :
    MSuffix (mRep p lo hi) := by
  intro l r x h
  obtain ⟨w, rest, rfl, _, _, rfl⟩ := mRep_elim h
  exact ⟨w, by simp, by simp⟩

theorem msuffix_mSeq {a b : M} (ha : MSuffix a) (hb : MSuffix b) :
    MSuffix (mSeq a b) := by
  intro l r x h
  obtain ⟨y, hy, hx⟩ := mSeq_elim h
  obtain ⟨w1, hw1, hw1'⟩ := ha l r y hy
  obtain ⟨w2, hw2, hw2'⟩ := hb y.1 y.2 x hx
  refine ⟨w1 ++ w2, ?_, ?_⟩
  · rw [hw1, hw2, List.append_assoc]
  · rw [hw2', hw1', List.reverse_append, List.append_assoc]

theorem msuffix_mAlt {a b : M} (ha : MSuffix a) (hb : MSuffix b) :
    MSuffix (mAlt a b) := by
  intro l r x h
  rcases mAlt_elim h with h2 | h2
  · exact ha l r x h2
  · exact hb l r x h2

theorem msuffix_mOpt {a : M} (ha : MSuffix a) : MSuffix (mOpt a) :=
  msuffix_mAlt ha msuffix_mEps

theorem msuffix_litCI (cs : List Char) : MSuffix (litCI cs) := by
  induction cs with
  | nil => exact msuffix_mEps
  | cons c cs ih => exact msuffix_mSeq (msuffix_mCls _) ih

theorem msuffix_mPlusF {a : M} (ha : MSuffix a) :
    ∀ fuel, MSuffix (mPlusF a fuel) := by
  intro fuel
  induction fuel with
  | zero => exact ha
  | succ fuel ih =>
    intro l r x h
    simp only [mPlusF, List.mem_flatMap] at h
    obtain ⟨y, hy, hx⟩ := h
    obtain ⟨w1, hw1, hw1'⟩ := ha l r y hy
    rcases List.mem_append.mp hx with hx2 | hx2
    · by_cases hlt : y.2.length < r.length
      · rw [if_pos hlt] at hx2
        obtain ⟨w2, hw2, hw2'⟩ := ih y.1 y.2 x hx2
        exact ⟨w1 ++ w2, by rw [hw1, hw2, List.append_assoc],
          by rw [hw2', hw1', List.reverse_append, List.append_assoc]⟩
      · rw [if_neg hlt] at hx2
        simp at hx2
    · rcases List.mem_singleton.mp hx2 with rfl
      exact ⟨w1, hw1, hw1'⟩

theorem msuffix_mPlus {a : M} (ha : MSuffix a) : MSuffix (mPlus a) := by
  intro l r x h
  simp only [mPlus] at h
  exact msuffix_mPlusF ha (r.length + 1) l r x h

theorem msuffix_host : MSuffix host_matcher := by
  unfold host_matcher
  exact msuffix_mSeq msuffix_mBound
    (msuffix_mSeq (msuffix_mRep _ _ _)
      (msuffix_mSeq (msuffix_mPlus (msuffix_mSeq (msuffix_mCls _) (msuffix_mRep _ _ _)))
        msuffix_mBound))

theorem msuffix_id : MSuffix internal_id_matcher := by
  unfold internal_id_matcher
  exact msuffix_mSeq msuffix_mBound
    (msuffix_mSeq
      (msuffix_mAlt (msuffix_litCI _)
        (msuffix_mSeq (msuffix_litCI _)
          (msuffix_mSeq (msuffix_mOpt (msuffix_mCls _)) (msuffix_litCI _))))
      (msuffix_mSeq (msuffix_mOpt (msuffix_mCls _))
        (msuffix_mSeq (msuffix_mRep _ _ _)
          (msuffix_mSeq (msuffix_mRep _ _ _) msuffix_mBound))))

/-- The hostname matcher always consumes at least one character. -/
theorem host_consumes {l r : List Char} {x : List Char × List Char}
    (h : x ∈ host_matcher l r) : x.2.length < r.length := by
  unfold host_matcher at h
  obtain ⟨y, hy, h1⟩ := mSeq_elim h
  have hy2 := mBound_elim hy
  subst hy2
  obtain ⟨z, hz, h2⟩ := mSeq_elim h1
  obtain ⟨w, rest, hr, hwp, hlo, hzx⟩ := mRep_elim hz
  obtain ⟨w2, hw2, _⟩ := msuffix_mSeq
    (msuffix_mPlus (msuffix_mSeq (msuffix_mCls _) (msuffix_mRep _ _ _)))
    msuffix_mBound z.1 z.2 x h2
  have hz2 : z.2 = rest := by rw [hzx]
  rw [hz2] at hw2
  have hlen1 : r.length = w.length + rest.length := by
    have := congrArg List.length hr
    simpa [List.length_append] using this
  have hlen2 : rest.length = w2.length + x.2.length := by
    have := congrArg List.length hw2
    simpa [List.length_append] using this
  omega

/-! ### The hostname rule matches every dot-flanked digit pair -/

theorem isWordChar_of_digit {c : Char} (h : isDigitCh c = true) : isWordChar c = true := by
  unfold isDigitCh at h
  simp [isWordChar, Char.isAlphanum, h]

theorem hostCls_of_digit {c : Char} (h : isDigitCh c = true) : hostCls c = true := by
  unfold isDigitCh at h
  simp [hostCls, Char.isAlphanum, h]

theorem head?_reverse_append {w x : List Char} (hw : w ≠ []) :
    ∃ d, (w.reverse ++ x).head? = some d ∧ d ∈ w := by
  cases hr : w.reverse with
  | nil =>
    rw [List.reverse_eq_nil_iff] at hr
    exact absurd hr hw
  | cons d t =>
    refine ⟨d, by simp [hr], ?_⟩
    have hd : d ∈ w.reverse := by rw [hr]; simp
    simpa using hd

/-- At any position whose left context starts with a dot and whose suffix
starts with `A '.' B '.'` for nonempty digit runs `A`, `B`, the hostname
matcher succeeds (consuming `A '.' B`, both boundaries being word/dot
boundaries). -/
theorem hostmatch_at {l0 rest : List Char} (A B : List Char)
    (hl : l0.head? = some '.')
    (hA0 : A ≠ []) (hB0 : B ≠ [])
    (hA : ∀ c ∈ A, isDigitCh c = true) (hB : ∀ c ∈ B, isDigitCh c = true) :
    host_matcher l0 (A ++ ('.' :: (B ++ ('.' :: rest)))) ≠ [] := by
  cases A with
  | nil => exact absurd rfl hA0
  | cons a A' =>
  have ha : isDigitCh a = true := hA a (by simp)
  have hclsA : ∀ c ∈ a :: A', hostCls c = true := fun c hc => hostCls_of_digit (hA c hc)
  have hclsB : ∀ c ∈ B, hostCls c = true := fun c hc => hostCls_of_digit (hB c hc)
  -- the element witnessing the match
  have e1 : (l0, (a :: A') ++ ('.' :: (B ++ ('.' :: rest))))
      ∈ mBound l0 ((a :: A') ++ ('.' :: (B ++ ('.' :: rest)))) := by
    apply mBound_intro
    rw [hl]
    simp [isWordChar_of_digit ha]
    decide
  have e2 : ((a :: A').reverse ++ l0, '.' :: (B ++ ('.' :: rest)))
      ∈ mRep hostCls 1 none l0 ((a :: A') ++ ('.' :: (B ++ ('.' :: rest)))) :=
    mRep_intro_none (a :: A') l0 ('.' :: (B ++ ('.' :: rest))) hclsA (by simp)
  have e3 : ('.' :: ((a :: A').reverse ++ l0), B ++ ('.' :: rest))
      ∈ mCls (fun c => c = '.') ((a :: A').reverse ++ l0) ('.' :: (B ++ ('.' :: rest))) :=
    mCls_intro (by decide)
  have e4 : (B.reverse ++ ('.' :: ((a :: A').reverse ++ l0)), '.' :: rest)
      ∈ mRep hostCls 1 none ('.' :: ((a :: A').reverse ++ l0)) (B ++ ('.' :: rest)) :=
    mRep_intro_none B _ ('.' :: rest) hclsB
      (by cases B with | nil => exact absurd rfl hB0 | cons b B' => simp)
  have e5 : (B.reverse ++ ('.' :: ((a :: A').reverse ++ l0)), '.' :: rest)
      ∈ mPlus (mSeq (mCls (fun c => c = '.')) (mRep hostCls 1 none))
          ((a :: A').reverse ++ l0) ('.' :: (B ++ ('.' :: rest))) :=
    mPlus_intro_one (mSeq_intro e3 e4)
  have e6 : (B.reverse ++ ('.' :: ((a :: A').reverse ++ l0)), '.' :: rest)
      ∈ mBound (B.reverse ++ ('.' :: ((a :: A').reverse ++ l0))) ('.' :: rest) := by
    apply mBound_intro
    obtain ⟨d, hd, hdB⟩ := head?_reverse_append (x := '.' :: ((a :: A').reverse ++ l0)) hB0
    rw [hd]
    simp [isWordChar_of_digit (hB d hdB)]
    decide
  have hfull : (B.reverse ++ ('.' :: ((a :: A').reverse ++ l0)), '.' :: rest)
      ∈ host_matcher l0 ((a :: A') ++ ('.' :: (B ++ ('.' :: rest)))) := by
    unfold host_matcher
    exact mSeq_intro e1 (mSeq_intro e2 (mSeq_intro e5 e6))
  exact List.ne_nil_of_mem hfull

/-- Every successful ip-pattern match exhibits the IPv4 interior skeleton
in its input suffix. -/
theorem ip_match_has_core {l r : List Char} (h : ip_matcher l r ≠ []) :
    HasIpCore r := by
  obtain ⟨x, hx⟩ := List.exists_mem_of_ne_nil _ h
  unfold ip_matcher at hx
  obtain ⟨y1, hy1, hx1⟩ := mSeq_elim hx
  have hy1e := mBound_elim hy1
  subst hy1e
  obtain ⟨z1, hz1, hx2⟩ := mSeq_elim hx1
  obtain ⟨g1, r1, hr1, hg1, hg1len, hz1e⟩ := mRep_elim hz1
  subst hz1e
  obtain ⟨z2, hz2, hx3⟩ := mSeq_elim hx2
  obtain ⟨c1, r2, hr2, hc1, hz2e⟩ := mCls_elim hz2
  subst hz2e
  obtain ⟨z3, hz3, hx4⟩ := mSeq_elim hx3
  obtain ⟨g2, r3, hr3, hg2, hg2len, hz3e⟩ := mRep_elim hz3
  subst hz3e
  obtain ⟨z4, hz4, hx5⟩ := mSeq_elim hx4
  obtain ⟨c2, r4, hr4, hc2, hz4e⟩ := mCls_elim hz4
  subst hz4e
  obtain ⟨z5, hz5, hx6⟩ := mSeq_elim hx5
  obtain ⟨g3, r5, hr5, hg3, hg3len, hz5e⟩ := mRep_elim hz5
  subst hz5e
  obtain ⟨z6, hz6, _⟩ := mSeq_elim hx6
  obtain ⟨c3, r6, hr6, hc3, hz6e⟩ := mCls_elim hz6
  have hc1' : c1 = '.' := of_decide_eq_true hc1
  have hc2' : c2 = '.' := of_decide_eq_true hc2
  have hc3' : c3 = '.' := of_decide_eq_true hc3
  subst hc1' hc2' hc3'
  have e1 : r = g1 ++ r1 := hr1
  have e2 : r1 = '.' :: r2 := hr2
  have e3 : r2 = g2 ++ r3 := hr3
  have e4 : r3 = '.' :: r4 := hr4
  have e5 : r4 = g3 ++ r5 := hr5
  have e6 : r5 = '.' :: r6 := hr6
  have hg2ne : g2 ≠ [] := by
    cases g2 with
    | nil => simp at hg2len
    | cons _ _ => simp
  have hg3ne : g3 ≠ [] := by
    cases g3 with
    | nil => simp at hg3len
    | cons _ _ => simp
  refine ⟨g1, ('.' :: g2) ++ ('.' :: g3) ++ ['.'], r6,
    ?_, g2, g3, rfl, hg2ne, hg3ne, hg2, hg3⟩
  rw [e1, e2, e3, e4, e5, e6]
  simp [List.append_assoc]

/-! ### Soundness and completeness of the position scan -/

theorem searchFrom_sound {m : M} :
    ∀ (r l : List Char), (searchFrom m l r).isSome = true →
    ∃ a b, r = a ++ b ∧ m (a.reverse ++ l) b ≠ [] := by
  intro r
  induction r with
  | nil =>
    intro l h
    cases hm : m l [] with
    | nil => simp [searchFrom, hm] at h
    | cons x xs => exact ⟨[], [], rfl, by simp [hm]⟩
  | cons c rest ih =>
    intro l h
    cases hm : m l (c :: rest) with
    | cons x xs => exact ⟨[], c :: rest, rfl, by simp [hm]⟩
    | nil =>
      rw [searchFrom, hm] at h
      obtain ⟨a, b, hab, hne⟩ := ih (c :: l) h
      exact ⟨c :: a, b, by simp [hab], by simpa [List.append_assoc] using hne⟩

theorem search_complete {m : M} :
    ∀ (a l b : List Char), m (a.reverse ++ l) b ≠ [] →
    (searchFrom m l (a ++ b)).isSome = true := by
  intro a
  induction a with
  | nil =>
    intro l b hne
    simp only [List.reverse_nil, List.nil_append] at hne
    cases b with
    | nil =>
      cases hm : m l [] with
      | nil => exact absurd hm hne
      | cons x xs => simp [searchFrom, hm]
    | cons c rest =>
      cases hm : m l (c :: rest) with
      | nil => exact absurd hm hne
      | cons x xs => simp [searchFrom, hm]
  | cons c a' ih =>
    intro l b hne
    show (searchFrom m l (c :: (a' ++ b))).isSome = true
    cases hm : m l (c :: (a' ++ b)) with
    | cons x xs => simp [searchFrom, hm]
    | nil =>
      rw [searchFrom, hm]
      apply ih (c :: l) b
      simpa [List.append_assoc] using hne

/-- A string containing the IPv4 interior skeleton is matched somewhere by
the hostname rule (the inner `A.B` pair is a word-bounded hostname shape). -/
theorem hasIpCore_search_host {s : List Char} (h : HasIpCore s) :
    re_search host_matcher s = true := by
  rcases h with ⟨u, w, v, heq, A, B, rfl, hA0, hB0, hA, hB⟩
  have hsplit : s = (u ++ ['.']) ++ (A ++ ('.' :: (B ++ ('.' :: v)))) := by
    rw [heq]
    simp [List.append_assoc]
  have hmatch : host_matcher ((u ++ ['.']).reverse ++ []) (A ++ ('.' :: (B ++ ('.' :: v)))) ≠ [] := by
    apply hostmatch_at A B ?_ hA0 hB0 hA hB
    simp [List.reverse_append]
  unfold re_search
  rw [hsplit]
  exact search_complete (u ++ ['.']) [] (A ++ ('.' :: (B ++ ('.' :: v)))) hmatch

theorem host_repl_no_core : ∀ c ∈ ("[redacted-host]".data), coreChar c = false := by
  decide

theorem id_repl_no_core : ∀ c ∈ ("[redacted-id]".data), coreChar c = false := by
  decide

theorem host_repl_ne_nil : ("[redacted-host]".data) ≠ [] := by
  decide

theorem id_repl_ne_nil : ("[redacted-id]".data) ≠ [] := by
  decide

/-- Appending an all-non-core block (such as a placeholder) to a core-free
text keeps it core-free. -/
theorem not_hasIpCore_append_repl {x y : List Char} (hx : ¬ HasIpCore x)
    (hy : ∀ c ∈ y, coreChar c = false) : ¬ HasIpCore (x ++ y) := by
  intro h
  rcases hasIpCore_splice h with h1 | h1 | ⟨q, p, hq, hp, hcore, _, ⟨y₂, hy2⟩⟩
  · exact hx h1
  · exact not_hasIpCore_of_no_coreChar hy h1
  · cases p with
    | nil => exact hp rfl
    | cons p0 p' =>
      have hmem : p0 ∈ q ++ (p0 :: p') :=
        List.mem_append.mpr (Or.inr (List.mem_cons_self _ _))
      have htrue := mem_coreChar_of_IpCore hcore p0 hmem
      have hfalse : coreChar p0 = false := hy p0 (by rw [hy2]; exact List.mem_cons_self _ _)
      rw [htrue] at hfalse
      exact Bool.noConfusion hfalse

/-- A dot-digit core completion cannot end inside text whose final block is
an all-non-core placeholder: the last character would have to be both a
digit and a non-core character. -/
theorem no_core_suffix_block {x y u₀ A B : List Char}
    (hy : ∀ c ∈ y, coreChar c = false) (hy0 : y ≠ []) (hB0 : B ≠ [])
    (hB : ∀ d ∈ B, isDigitCh d = true)
    (h : x ++ y = u₀ ++ ('.' :: A) ++ ('.' :: B)) : False := by
  obtain ⟨d, hd, hdy⟩ := head?_reverse_append (w := y) (x := x.reverse) hy0
  obtain ⟨b, hb, hbB⟩ :=
    head?_reverse_append (w := B) (x := (u₀ ++ ('.' :: A) ++ ['.']).reverse) hB0
  have h1 : (x ++ y).reverse.head? = some d := by
    rw [List.reverse_append]; exact hd
  have h2 : (u₀ ++ ('.' :: A) ++ ('.' :: B)).reverse.head? = some b := by
    have he : u₀ ++ ('.' :: A) ++ ('.' :: B) = (u₀ ++ ('.' :: A) ++ ['.']) ++ B := by
      simp [List.append_assoc]
    rw [he, List.reverse_append]
    exact hb
  rw [h, h2] at h1
  have hdb : b = d := Option.some.inj h1
  have hdc := hy d hdy
  have hbc : coreChar b = true := by
    simp [coreChar, hB b hbB]
  rw [hdb, hdc] at hbc
  exact Bool.noConfusion hbc

/-- One-step unfolding of the substitution loop at positive fuel. -/
theorem subLoop_succ (m : M) (repl : List Char) (fuel : Nat) (out l r : List Char) :
    subLoop m repl (fuel + 1) out l r =
      match m l r with
      | x :: _ =>
        if r.length - x.2.length = 0 then
          match r with
          | [] => (repl.reverse ++ out).reverse
          | c :: rest => subLoop m repl fuel (c :: (repl.reverse ++ out)) (c :: l) rest
        else
          subLoop m repl fuel (repl.reverse ++ out)
            ((r.take (r.length - x.2.length)).reverse ++ l) x.2
      | [] =>
        match r with
        | [] => out.reverse
        | c :: rest => subLoop m repl fuel (c :: out) (c :: l) rest := rfl

/-- Core induction for the hostname pass: starting from a core-free output
accumulator whose recent all-core characters carry recorded matcher
failures, the hostname substitution loop produces core-free output — a
completed dot-digit core in the output would exhibit a position where the
hostname matcher both failed (it was skipped) and succeeds (the dot-digit
shape is a hostname match). -/
theorem subLoop_host_clean (fuel : Nat) :
    ∀ (out l r : List Char), r.length + 1 ≤ fuel →
      ¬ HasIpCore out.reverse → HostInv out l r →
      ¬ HasIpCore (subLoop host_matcher ("[redacted-host]".data) fuel out l r) := by
  induction fuel with
  | zero =>
    intro out l r hfuel _ _
    exact absurd hfuel (by omega)
  | succ fuel ih =>
    intro out l r hfuel hclean hinv
    rw [subLoop_succ]
    cases hm : host_matcher l r with
    | nil =>
      cases r with
      | nil =>
        exact hclean
      | cons c rest =>
        show ¬ HasIpCore (subLoop host_matcher ("[redacted-host]".data) fuel
          (c :: out) (c :: l) rest)
        apply ih (c :: out) (c :: l) rest (by simp at hfuel ⊢; omega)
        · -- the new accumulator stays core-free
          intro hcore
          rw [List.reverse_cons] at hcore
          rcases hasIpCore_append_singleton hcore with
            h1 | ⟨hc, u₀, A, B, hshape, hA0, hB0, hA, hB⟩
          · exact hclean h1
          · subst hc
            have hout : out = ((('.' :: A) ++ ('.' :: B)).reverse) ++ u₀.reverse := by
              have h0 := congrArg List.reverse hshape
              rw [List.reverse_reverse] at h0
              rw [h0]
              simp [List.reverse_append, List.append_assoc]
            have hout1 : out = (A ++ ('.' :: B)).reverse ++ ('.' :: u₀.reverse) := by
              rw [hout]
              simp [List.reverse_append, List.append_assoc]
            obtain ⟨l₂', hl₂', hfact⟩ := hinv ((A ++ ('.' :: B)).reverse)
              ('.' :: u₀.reverse) hout1
              (by intro ch hch
                  rw [List.mem_reverse] at hch
                  rcases List.mem_append.mp hch with h2 | h2
                  · simp [coreChar, hA ch h2]
                  · rcases List.mem_cons.mp h2 with rfl | h3
                    · simp [coreChar]
                    · simp [coreChar, hB ch h3])
            rcases hfact with h2 | hfact
            · exact absurd h2 (by simp)
            rw [List.reverse_reverse] at hfact
            simp only [List.append_assoc, List.cons_append] at hfact
            obtain ⟨l₂, hl₂, _⟩ := hinv ((('.' :: A) ++ ('.' :: B)).reverse)
              u₀.reverse hout
              (by intro ch hch
                  rw [List.mem_reverse] at hch
                  rcases List.mem_append.mp hch with h2 | h2
                  · rcases List.mem_cons.mp h2 with rfl | h3
                    · simp [coreChar]
                    · simp [coreChar, hA ch h3]
                  · rcases List.mem_cons.mp h2 with rfl | h3
                    · simp [coreChar]
                    · simp [coreChar, hB ch h3])
            have hle : (A ++ ('.' :: B)).reverse ++ l₂' =
                (A ++ ('.' :: B)).reverse ++ ('.' :: l₂) := by
              rw [← hl₂', hl₂]
              simp [List.reverse_append, List.append_assoc]
            have hl2e : l₂' = '.' :: l₂ := List.append_cancel_left hle
            rw [hl2e] at hfact
            exact @hostmatch_at ('.' :: l₂) rest A B rfl hA0 hB0 hA hB hfact
        · -- the invariant is preserved by the skip
          intro u v huv hcores
          cases u with
          | nil => exact ⟨c :: l, rfl, Or.inl rfl⟩
          | cons u0 u' =>
            rw [List.cons_append] at huv
            injection huv with h1 h2
            obtain ⟨l₂, hl₂, hfact⟩ := hinv u' v h2
              (fun ch hch => hcores ch (List.mem_cons.mpr (Or.inr hch)))
            refine ⟨l₂, by rw [hl₂, h1]; rfl, Or.inr ?_⟩
            cases u' with
            | nil =>
              have hl2 : l₂ = l := by simpa using hl₂.symm
              show host_matcher l₂ ((u0 :: ([] : List Char)).reverse ++ rest) = []
              rw [hl2, ← h1]
              simpa using hm
            | cons u1 u'' =>
              rcases hfact with h3 | h3
              · exact absurd h3 (by simp)
              · show host_matcher l₂ ((u0 :: u1 :: u'').reverse ++ rest) = []
                have he : (u0 :: u1 :: u'').reverse ++ rest =
                    (u1 :: u'').reverse ++ (c :: rest) := by
                  simp [← h1, List.append_assoc]
                rw [he]
                exact h3
    | cons x xs =>
      have hxm : x ∈ host_matcher l r := by rw [hm]; exact List.mem_cons_self _ _
      have hlt := host_consumes hxm
      have hne : ¬ (r.length - x.2.length = 0) := by omega
      dsimp only
      rw [if_neg hne]
      apply ih _ _ _ (by omega)
      · -- the output stays core-free after emitting the placeholder
        intro hcore
        rw [List.reverse_append, List.reverse_reverse] at hcore
        exact not_hasIpCore_append_repl hclean host_repl_no_core hcore
      · -- the placeholder's head blocks every nonempty all-core prefix
        intro u v huv hcores
        cases u with
        | nil => exact ⟨_, rfl, Or.inl rfl⟩
        | cons u0 u' =>
          exfalso
          obtain ⟨d, dr, hdr⟩ := List.exists_cons_of_ne_nil
            (fun hh => host_repl_ne_nil (List.reverse_eq_nil_iff.mp hh))
          rw [hdr, List.cons_append] at huv
          injection huv with h1 _
          have hdm : d ∈ ("[redacted-host]".data) := by
            rw [← List.mem_reverse, hdr]; exact List.mem_cons_self _ _
          have hdc := host_repl_no_core d hdm
          have ht := hcores u0 (List.mem_cons_self _ _)
          rw [← h1] at ht
          rw [ht] at hdc
          exact Bool.noConfusion hdc

/-- The hostname pass leaves no dot-digit core anywhere in its output. -/
theorem re_sub_host_clean (s : List Char) :
    ¬ HasIpCore (re_sub host_matcher ("[redacted-host]".data) s) := by
  unfold re_sub
  apply subLoop_host_clean (s.length + 1) [] [] s (by omega)
  · exact not_hasIpCore_nil
  · intro u v huv _
    have hu : u = [] := (List.append_eq_nil.mp huv.symm).1
    subst hu
    exact ⟨[], rfl, Or.inl rfl⟩

/-- Core preservation for the internal-id pass: substitution on a core-free
text (placeholder without dots or digits) yields a core-free text. -/
theorem subLoop_id_clean (fuel : Nat) :
    ∀ (out l r : List Char),
      ¬ HasIpCore (l.reverse ++ r) → ¬ HasIpCore out.reverse → SkipInv out l →
      ¬ HasIpCore (subLoop internal_id_matcher ("[redacted-id]".data) fuel out l r) := by
  induction fuel with
  | zero =>
    intro out l r hctx hclean hskip
    show ¬ HasIpCore (out.reverse ++ r)
    intro hcore
    rcases hasIpCore_splice hcore with
      h1 | h1 | ⟨q, p, hq, hp, hcore2, ⟨x₁, hx1⟩, ⟨y₂, hy2⟩⟩
    · exact hclean h1
    · exact hctx (hasIpCore_append_left l.reverse h1)
    · obtain ⟨l₂, hl₂⟩ := hskip q.reverse x₁.reverse
        (by rw [← List.reverse_append, ← hx1, List.reverse_reverse])
        (fun ch hch => mem_coreChar_of_IpCore hcore2 ch
          (List.mem_append.mpr (Or.inl (List.mem_reverse.mp hch))))
      apply hctx
      refine ⟨l₂.reverse, q ++ p, y₂, ?_, hcore2⟩
      rw [hl₂, hy2]
      simp [List.reverse_append, List.append_assoc]
  | succ fuel ih =>
    intro out l r hctx hclean hskip
    rw [subLoop_succ]
    cases hm : internal_id_matcher l r with
    | nil =>
      cases r with
      | nil => exact hclean
      | cons c rest =>
        show ¬ HasIpCore (subLoop internal_id_matcher ("[redacted-id]".data) fuel
          (c :: out) (c :: l) rest)
        apply ih (c :: out) (c :: l) rest
        · intro hcore
          exact hctx (by simpa [List.reverse_cons, List.append_assoc] using hcore)
        · -- the new accumulator stays core-free: a completed core would be
          -- a core already present in the untouched original text
          intro hcore
          rw [List.reverse_cons] at hcore
          rcases hasIpCore_append_singleton hcore with
            h1 | ⟨hc, u₀, A, B, hshape, hA0, hB0, hA, hB⟩
          · exact hclean h1
          · subst hc
            have hout : out = ((('.' :: A) ++ ('.' :: B)).reverse) ++ u₀.reverse := by
              have h0 := congrArg List.reverse hshape
              rw [List.reverse_reverse] at h0
              rw [h0]
              simp [List.reverse_append, List.append_assoc]
            obtain ⟨l₂, hl₂⟩ := hskip ((('.' :: A) ++ ('.' :: B)).reverse) u₀.reverse hout
              (by intro ch hch
                  rw [List.mem_reverse] at hch
                  rcases List.mem_append.mp hch with h2 | h2
                  · rcases List.mem_cons.mp h2 with rfl | h3
                    · simp [coreChar]
                    · simp [coreChar, hA ch h3]
                  · rcases List.mem_cons.mp h2 with rfl | h3
                    · simp [coreChar]
                    · simp [coreChar, hB ch h3])
            apply hctx
            refine ⟨l₂.reverse, '.' :: A ++ '.' :: B ++ ['.'], rest, ?_,
              A, B, rfl, hA0, hB0, hA, hB⟩
            rw [hl₂]
            simp [List.reverse_append, List.append_assoc]
        · intro u v huv hcores
          cases u with
          | nil => exact ⟨c :: l, rfl⟩
          | cons u0 u' =>
            rw [List.cons_append] at huv
            injection huv with h1 h2
            obtain ⟨l₂, hl₂⟩ := hskip u' v h2
              (fun ch hch => hcores ch (List.mem_cons.mpr (Or.inr hch)))
            exact ⟨l₂, by rw [hl₂, h1]; rfl⟩
    | cons x xs =>
      have hxm : x ∈ internal_id_matcher l r := by rw [hm]; exact List.mem_cons_self _ _
      obtain ⟨w, hw, hwl⟩ := msuffix_id l r x hxm
      have hlen : r.length - x.2.length = w.length := by
        rw [hw]; simp
      have htake : r.take (r.length - x.2.length) = w := by
        rw [hlen, hw, List.take_left]
      dsimp only
      by_cases h0 : r.length - x.2.length = 0
      · rw [if_pos h0]
        -- zero-width match: emit the placeholder, then skip one character
        cases r with
        | nil =>
          intro hcore
          rw [List.reverse_append, List.reverse_reverse] at hcore
          exact not_hasIpCore_append_repl hclean id_repl_no_core hcore
        | cons c rest =>
          apply ih _ _ _
          · intro hcore
            exact hctx (by simpa [List.reverse_cons, List.append_assoc] using hcore)
          · intro hcore
            rw [List.reverse_cons, List.reverse_append, List.reverse_reverse] at hcore
            rcases hasIpCore_append_singleton hcore with
              h1 | ⟨hc, u₀, A, B, hshape, hA0, hB0, hA, hB⟩
            · exact not_hasIpCore_append_repl hclean id_repl_no_core h1
            · exact no_core_suffix_block id_repl_no_core id_repl_ne_nil hB0 hB hshape
          · intro u v huv hcores
            cases u with
            | nil => exact ⟨c :: l, rfl⟩
            | cons u0 u' =>
              cases u' with
              | nil =>
                refine ⟨l, ?_⟩
                rw [List.cons_append] at huv
                injection huv with h1 _
                rw [h1]
                rfl
              | cons u1 u'' =>
                exfalso
                obtain ⟨d, dr, hdr⟩ := List.exists_cons_of_ne_nil
                  (fun hh => id_repl_ne_nil (List.reverse_eq_nil_iff.mp hh))
                rw [hdr] at huv
                simp only [List.cons_append] at huv
                injection huv with h1 h2
                injection h2 with hd _
                have hdm : d ∈ ("[redacted-id]".data) := by
                  rw [← List.mem_reverse, hdr]; exact List.mem_cons_self _ _
                have hdc := id_repl_no_core d hdm
                have ht := hcores u1 (by simp)
                rw [← hd] at ht
                rw [ht] at hdc
                exact Bool.noConfusion hdc
      · rw [if_neg h0]
        apply ih _ _ _
        · -- the original text seen from the new position is unchanged
          intro hcore
          apply hctx
          rw [htake] at hcore
          rw [List.reverse_append, List.reverse_reverse] at hcore
          rw [hw]
          simpa [List.append_assoc] using hcore
        · intro hcore
          rw [List.reverse_append, List.reverse_reverse] at hcore
          exact not_hasIpCore_append_repl hclean id_repl_no_core hcore
        · intro u v huv hcores
          cases u with
          | nil => exact ⟨_, rfl⟩
          | cons u0 u' =>
            exfalso
            obtain ⟨d, dr, hdr⟩ := List.exists_cons_of_ne_nil
              (fun hh => id_repl_ne_nil (List.reverse_eq_nil_iff.mp hh))
            rw [hdr, List.cons_append] at huv
            injection huv with h1 _
            have hdm : d ∈ ("[redacted-id]".data) := by
              rw [← List.mem_reverse, hdr]; exact List.mem_cons_self _ _
            have hdc := id_repl_no_core d hdm
            have ht := hcores u0 (List.mem_cons_self _ _)
            rw [← h1] at ht
            rw [ht] at hdc
            exact Bool.noConfusion hdc

/-- The internal-id pass preserves core-freeness. -/
theorem re_sub_id_clean {s : List Char} (h : ¬ HasIpCore s) :
    ¬ HasIpCore (re_sub internal_id_matcher ("[redacted-id]".data) s) := by
  unfold re_sub
  apply subLoop_id_clean (s.length + 1) [] [] s
  · simpa using h
  · exact not_hasIpCore_nil
  · intro u v huv _
    have hu : u = [] := (List.append_eq_nil.mp huv.symm).1
    subst hu
    exact ⟨[], rfl⟩

/-- A core-free text cannot match the ip pattern anywhere. -/
theorem core_free_no_ip_search {s : List Char} (h : ¬ HasIpCore s) :
    re_search ip_matcher s = false := by
  cases hb : re_search ip_matcher s with
  | false => rfl
  | true =>
    exfalso
    unfold re_search at hb
    obtain ⟨a, b, hab, hmne⟩ := searchFrom_sound s [] hb
    subst hab
    exact h (hasIpCore_append_left a (ip_match_has_core hmne))

theorem intercalate_nl_nil : List.intercalate ['\n'] ([] : List (List Char)) = [] := by
  simp [List.intercalate]

theorem intercalate_nl_single (a : List Char) : List.intercalate ['\n'] [a] = a := by
  simp [List.intercalate]

theorem intercalate_nl_cons (a b : List Char) (t : List (List Char)) :
    List.intercalate ['\n'] (a :: b :: t) =
      a ++ '\n' :: List.intercalate ['\n'] (b :: t) := by
  simp [List.intercalate, List.intersperse]

/-- A core inside a newline-join lies inside one of the joined lines: the
separator `'\n'` is not a core character, so no core spans it. -/
theorem hasIpCore_intercalate : ∀ (ls : List (List Char)),
    HasIpCore (List.intercalate ['\n'] ls) → ∃ line ∈ ls, HasIpCore line := by
  intro ls
  induction ls with
  | nil =>
    intro h
    rw [intercalate_nl_nil] at h
    exact absurd h not_hasIpCore_nil
  | cons a tl ih =>
    cases tl with
    | nil =>
      intro h
      rw [intercalate_nl_single] at h
      exact ⟨a, by simp, h⟩
    | cons b t =>
      intro h
      rw [intercalate_nl_cons] at h
      rcases hasIpCore_splice h with
        h1 | h1 | ⟨q, p, hq, hp, hcore, _, ⟨y₂, hy2⟩⟩
      · exact ⟨a, by simp, h1⟩
      · have h2 := hasIpCore_cons_elim h1 (by decide)
        obtain ⟨line, hmem, hline⟩ := ih h2
        exact ⟨line, List.mem_cons.mpr (Or.inr hmem), hline⟩
      · exfalso
        cases p with
        | nil => exact hp rfl
        | cons p0 p' =>
          simp only [List.cons_append] at hy2
          injection hy2 with h3 _
          have hpc := mem_coreChar_of_IpCore hcore p0
            (List.mem_append.mpr (Or.inr (List.mem_cons_self _ _)))
          rw [← h3] at hpc
          exact absurd hpc (by decide)

/-- The head line produced by `splitlines` is an initial segment of the
text. -/
theorem splitlines_head : ∀ (s : List Char) (ln : List Char)
    (rest : List (List Char)), splitlinesPy s = ln :: rest → ∃ v, s = ln ++ v := by
  intro s
  induction s using splitlinesPy.induct with
  | case1 =>
    intro ln rest h
    simp [splitlinesPy] at h
  | case2 tl ih =>
    intro ln rest h
    rw [show splitlinesPy ('\r' :: '\n' :: tl) = [] :: splitlinesPy tl from rfl] at h
    injection h with h1 _
    exact ⟨'\r' :: '\n' :: tl, by rw [← h1]; rfl⟩
  | case3 c tl hg hsep ih =>
    intro ln rest h
    have hred : splitlinesPy (c :: tl) = [] :: splitlinesPy tl := by
      rw [splitlinesPy.eq_3 c tl hg]
      simp [hsep]
    rw [hred] at h
    injection h with h1 _
    exact ⟨c :: tl, by rw [← h1]; rfl⟩
  | case4 c tl hg hsep hftl ih =>
    intro ln rest h
    have hred : splitlinesPy (c :: tl) = [[c]] := by
      rw [splitlinesPy.eq_3 c tl hg]
      simp [hsep, hftl]
    rw [hred] at h
    injection h with h1 _
    exact ⟨tl, by rw [← h1]; rfl⟩
  | case5 c tl hg hsep ln' rest' hftl ih =>
    intro ln rest h
    have hred : splitlinesPy (c :: tl) = (c :: ln') :: rest' := by
      rw [splitlinesPy.eq_3 c tl hg]
      simp [hsep, hftl]
    rw [hred] at h
    injection h with h1 _
    obtain ⟨v, hv⟩ := ih ln' rest' hftl
    refine ⟨v, ?_⟩
    rw [← h1, hv]
    rfl

/-- Every line produced by `splitlines` is a contiguous substring of the
text. -/
theorem splitlines_mem_sub : ∀ (s : List Char), ∀ line ∈ splitlinesPy s,
    ∃ u v, s = u ++ line ++ v := by
  intro s
  induction s using splitlinesPy.induct with
  | case1 =>
    intro line h
    simp [splitlinesPy] at h
  | case2 tl ih =>
    intro line h
    rw [show splitlinesPy ('\r' :: '\n' :: tl) = [] :: splitlinesPy tl from rfl] at h
    rcases List.mem_cons.mp h with rfl | h2
    · exact ⟨[], '\r' :: '\n' :: tl, rfl⟩
    · obtain ⟨u, v, hv⟩ := ih line h2
      exact ⟨'\r' :: '\n' :: u, v, by rw [hv]; simp⟩
  | case3 c tl hg hsep ih =>
    intro line h
    have hred : splitlinesPy (c :: tl) = [] :: splitlinesPy tl := by
      rw [splitlinesPy.eq_3 c tl hg]
      simp [hsep]
    rw [hred] at h
    rcases List.mem_cons.mp h with rfl | h2
    · exact ⟨[], c :: tl, rfl⟩
    · obtain ⟨u, v, hv⟩ := ih line h2
      exact ⟨c :: u, v, by rw [hv]; simp⟩
  | case4 c tl hg hsep hftl ih =>
    intro line h
    have hred : splitlinesPy (c :: tl) = [[c]] := by
      rw [splitlinesPy.eq_3 c tl hg]
      simp [hsep, hftl]
    rw [hred] at h
    rcases List.mem_cons.mp h with rfl | h2
    · exact ⟨[], tl, rfl⟩
    · simp at h2
  | case5 c tl hg hsep ln' rest' hftl ih =>
    intro line h
    have hred : splitlinesPy (c :: tl) = (c :: ln') :: rest' := by
      rw [splitlinesPy.eq_3 c tl hg]
      simp [hsep, hftl]
    rw [hred] at h
    rcases List.mem_cons.mp h with rfl | h2
    · obtain ⟨v, hv⟩ := splitlines_head tl ln' rest' hftl
      exact ⟨[], v, by rw [hv]; rfl⟩
    · obtain ⟨u, v, hv⟩ := ih line (by rw [hftl]; exact List.mem_cons.mpr (Or.inr h2))
      exact ⟨c :: u, v, by rw [hv]; simp⟩

/-- Dropping lines and rejoining with `'\n'` preserves core-freeness. -/
theorem filter_join_clean {s : List Char} (h : ¬ HasIpCore s) :
    ¬ HasIpCore (List.intercalate ['\n']
      ((splitlinesPy s).filter (fun l => !stack_line_hit l))) := by
  intro hc
  obtain ⟨line, hmem, hline⟩ := hasIpCore_intercalate _ hc
  have hmem' : line ∈ splitlinesPy s := (List.mem_filter.mp hmem).1
  obtain ⟨u, v, rfl⟩ := splitlines_mem_sub s line hmem'
  exact h (hasIpCore_append_right v (hasIpCore_append_left u hline))

/-- After the hostname step (applied or skipped), the text is core-free. -/
theorem host_step_clean (s2 : List Char) :
    ¬ HasIpCore (if re_search host_matcher s2
                 then re_sub host_matcher "[redacted-host]".data s2 else s2) := by
  by_cases hh : re_search host_matcher s2 = true
  · rw [if_pos hh]
    exact re_sub_host_clean s2
  · rw [if_neg hh]
    intro hc
    exact hh (hasIpCore_search_host hc)

/-- The internal-id step (applied or skipped) preserves core-freeness. -/
theorem id_step_clean {s3 : List Char} (h : ¬ HasIpCore s3) :
    ¬ HasIpCore (if re_search internal_id_matcher s3
                 then re_sub internal_id_matcher "[redacted-id]".data s3 else s3) := by
  by_cases hi : re_search internal_id_matcher s3 = true
  · rw [if_pos hi]
    exact re_sub_id_clean h
  · rw [if_neg hi]
    exact h

/-- The full pipeline never leaves an ip-pattern match in the final text:
the hostname pass (which precedes the internal-id pass) destroys every
dot-digit core, the internal-id pass and the line filter preserve
core-freeness, and a core-free text cannot match the ip pattern. -/
theorem sanitize_no_ip_residue (t : String) :
    re_search ip_matcher ((sanitize_text t).text).data = false := by
  rw [sanitize_text_eq]
  dsimp only
  apply core_free_no_ip_search
  apply filter_join_clean
  exact id_step_clean (host_step_clean _)

/-! ### Claim theorems -/

/-- C1, counterexample to the claim as stated: sanitizing
`"id:\n:Error: x\nABCDEFG"` leaves the text `"id:\nABCDEFG"`, which again
matches the internal-id rule's pattern — the line filter runs after the
redaction pass and here splices an `id:` line with an identifier line, so
the returned text is not free of substrings matching the active rules. -/
theorem C1_counterexample :
    sanitize_text "id:\n:Error: x\nABCDEFG"
      = { text := "id:\nABCDEFG", notes := [⟨"stack-trace-line", "removed"⟩] }
    ∧ re_search internal_id_matcher ("id:\nABCDEFG").data = true := by
  exact ⟨by decide, by decide⟩

/-- C1 (amended): for every input containing an IPv4-shaped substring
(a match of the ip rule's pattern), the returned text contains no
IPv4-shaped substring and the Redactor notes include an entry with kind
"ip"; the blanket no-residual-match invariant over all four rules fails
(see the counterexample), because line filtering runs after redaction and
can splice a fresh internal-id match. -/
theorem C1_no_ip_residue_and_note (t : String)
    (h : re_search ip_matcher t.data = true) :
    re_search ip_matcher ((sanitize_text t).text).data = false ∧
    (⟨"ip", "redacted"⟩ : RedactionNote) ∈ (sanitize_text t).notes := by
  refine ⟨sanitize_no_ip_residue t, ?_⟩
  rw [sanitize_text_eq]
  simp [h]

/-- C1 witness: the input "gateway 10.0.0.1 down" contains an IPv4-shaped
substring, its sanitization carries an "ip" note and its output text is
free of IPv4-shaped substrings. -/
theorem C1_no_ip_residue_and_note_witness :
    re_search ip_matcher ("gateway 10.0.0.1 down").data = true
    ∧ (re_search ip_matcher ((sanitize_text "gateway 10.0.0.1 down").text).data = false
       ∧ (⟨"ip", "redacted"⟩ : RedactionNote) ∈ (sanitize_text "gateway 10.0.0.1 down").notes) :=
  ⟨by decide, C1_no_ip_residue_and_note "gateway 10.0.0.1 down" (by decide)⟩

/-- C2: the Redactor applies its rules in the fixed order ip, email,
hostname, internal-id against the progressively redacted text; each rule
that matches anywhere substitutes all its matches globally and appends
exactly one note, independent of match count; concretely,
"user@example.com" yields exactly one "email" note and no "hostname" note
on the placeholder, "a@b.co and c@d.ee" still yields a single "email"
note, and matching is case-insensitive ("ID: ABC123xy" fires the
internal-id rule). -/
theorem C2_rule_order_and_single_note (t : String) :
    ((sanitize_text t).notes =
      (let s1 := if re_search ip_matcher t.data
                 then re_sub ip_matcher "[redacted-ip]".data t.data else t.data
       let s2 := if re_search email_matcher s1
                 then re_sub email_matcher "[redacted-email]".data s1 else s1
       let s3 := if re_search host_matcher s2
                 then re_sub host_matcher "[redacted-host]".data s2 else s2
       let s4 := if re_search internal_id_matcher s3
                 then re_sub internal_id_matcher "[redacted-id]".data s3 else s3
       (if re_search ip_matcher t.data then [⟨"ip", "redacted"⟩] else [])
       ++ (if re_search email_matcher s1 then [⟨"email", "redacted"⟩] else [])
       ++ (if re_search host_matcher s2 then [⟨"hostname", "redacted"⟩] else [])
       ++ (if re_search internal_id_matcher s3 then [⟨"internal-id", "redacted"⟩] else [])
       ++ List.replicate ((splitlinesPy s4).countP stack_line_hit)
            ⟨"stack-trace-line", "removed"⟩))
    ∧ sanitize_text "user@example.com"
        = { text := "[redacted-email]", notes := [⟨"email", "redacted"⟩] }
    ∧ sanitize_text "a@b.co and c@d.ee"
        = { text := "[redacted-email] and [redacted-email]", notes := [⟨"email", "redacted"⟩] }
    ∧ sanitize_text "ID: ABC123xy"
        = { text := "[redacted-id]", notes := [⟨"internal-id", "redacted"⟩] } := by
  refine ⟨?_, by decide, by decide, by decide⟩
  rw [sanitize_text_eq]

set_option maxRecDepth 100000 in
/-- C3, counterexample to the claim as stated: a mitigation value of 2060
`a`s followed by "1.2.3.4" reaches the email export verbatim, but the
statuspage export is cut at 2000 characters, which drops the "1.2.3.4"
supplied in mitigation — so an unsanitized mitigation string does not
always appear in both exports. -/
theorem C3_counterexample :
    hasSubList "1.2.3.4".data
      (generate false none none
        { mitigation := some (String.mk (List.replicate 2060 'a' ++ "1.2.3.4".data)) }).1.exports.statuspage.data
      = false
    ∧ hasSubList "1.2.3.4".data
      (generate false none none
        { mitigation := some (String.mk (List.replicate 2060 'a' ++ "1.2.3.4".data)) }).1.exports.email.data
      = true := by
  exact ⟨by decide, by decide⟩

/-- C3 (amended): only summary and impact are sanitized; the mitigation
value is never passed through the Redactor and appears verbatim in the
short and detailed drafts for every request, in the standard draft and
the email export whenever the backend produced no text, and in the
statuspage export whenever the statuspage stayed under its
2000-character cut. -/
theorem C3_mitigation_never_sanitized (key : Bool) (bt model : Option String) (p : Payload) :
    hasSubList (p.mitigation.getD "investigating").data
        (generate key bt model p).1.drafts_short.data = true
    ∧ hasSubList (p.mitigation.getD "investigating").data
        (generate key bt model p).1.drafts_detailed.data = true
    ∧ (try_llm_generate key bt = none →
        hasSubList (p.mitigation.getD "investigating").data
          (generate key bt model p).1.drafts_standard.data = true)
    ∧ (try_llm_generate key bt = none →
        hasSubList (p.mitigation.getD "investigating").data
          (generate key bt model p).1.exports.email.data = true)
    ∧ (try_llm_generate key bt = none →
        (generate key bt model p).1.exports.statuspage.length < 2000 →
        hasSubList (p.mitigation.getD "investigating").data
          (generate key bt model p).1.exports.statuspage.data = true) := by
  refine ⟨?_, ?_, ?_, ?_, ?_⟩
  · simp only [generate]
    exact templated_contains_mitigation _ _ _ _ _ _
  · simp only [generate]
    exact templated_contains_mitigation _ _ _ _ _ _
  · intro h
    simp only [generate, h]
    exact templated_contains_mitigation _ _ _ _ _ _
  · intro h
    simp only [generate, h]
    rw [format_templates_email_data]
    exact hasSubList_mid5 _ _ _ _ (templated_contains_mitigation _ _ _ _ _ _)
  · intro h h2
    simp only [generate, h] at h2 ⊢
    simp only [String.length] at h2
    rw [format_templates_statuspage_data] at h2 ⊢
    rw [List.length_take] at h2
    exact hasSubList_take_of_min_lt h2
      (hasSubList_mid5 _ _ _ _ (templated_contains_mitigation _ _ _ _ _ _))

/-- C3 witness: with no backend and a short mitigation "creds-X9", the
statuspage stays under the cap and shows the mitigation verbatim. -/
theorem C3_mitigation_never_sanitized_witness :
    try_llm_generate false none = none
    ∧ (generate false none none { mitigation := some "creds-X9" }).1.exports.statuspage.length < 2000
    ∧ hasSubList "creds-X9".data
        (generate false none none { mitigation := some "creds-X9" }).1.exports.statuspage.data = true :=
  ⟨by decide, by decide,
   (C3_mitigation_never_sanitized false none none { mitigation := some "creds-X9" }).2.2.2.2
     (by decide) (by decide)⟩

/-- C4: the line "    at /tmp/worker" contains the path-like fragment
" at /" that the claim (and spec) says is dropped, yet `sanitize_text`
keeps it and emits no note; the raw-string regex alternatives
` at \\/| at \\\\` only match the literal texts " at \/" and " at \\"
(which are dropped), so the code over-escapes the intended path-like
patterns. -/
theorem C4_path_like_at_lines_not_dropped :
    sanitize_text "    at /tmp/worker" = { text := "    at /tmp/worker", notes := [] }
    ∧ stack_line_hit ("    at /tmp/worker").data = false
    ∧ stack_line_hit ("boom at \\/x").data = true
    ∧ stack_line_hit ("boom at \\\\x").data = true := by
  exact ⟨by decide, by decide, by decide, by decide⟩

/-- C5: whenever the backend yields nothing (`try_llm_generate` returns
none: key missing, call raised, or empty/whitespace-only text), `generate`
still returns the full envelope, with the standard draft equal to the
deterministic template (which carries the templated closing phrase),
backend-used false and blocked false; the final conjuncts record that a
missing key, a raised call, and whitespace-only text each produce none. -/
theorem C5_backend_failure_silent_fallback (key : Bool) (bt model : Option String)
    (p : Payload) (h : try_llm_generate key bt = none) :
    (generate key bt model p).1.drafts_standard
      = templated (p.mitigation.getD "investigating")
          ((sanitize_text (p.impact.getD "")).text)
          (p.severity.getD "SEV3")
          (pyOr p.next_update (default_cadence (p.severity.getD "SEV3")))
          ((sanitize_text (p.summary.getD "")).text) "standard"
    ∧ hasSubList "We will provide further details as they are verified.".data
        (generate key bt model p).1.drafts_standard.data = true
    ∧ (generate key bt model p).1.meta_llm_used = false
    ∧ (generate key bt model p).1.guardrails_blocked = false
    ∧ (generate key bt model p).1.exports
        = format_templates (generate key bt model p).1.meta_stage
            (generate key bt model p).1.drafts_standard
            (generate key bt model p).1.meta_next_update
    ∧ try_llm_generate false bt = none
    ∧ try_llm_generate key none = none
    ∧ (∀ s : String, pyStrip s = "" → try_llm_generate key (some s) = none) := by
  refine ⟨?_, ?_, ?_, ?_, ?_, ?_, ?_, ?_⟩
  · simp [generate, h]
  · simp only [generate, h]
    rw [templated]
    simp only [if_neg (by decide : ¬ ("standard" : String) = "short"), if_pos rfl, if_true,
      eq_self_iff_true]
    rw [String.data_append]
    exact hasSubList_append_of_right _ (by decide)
  · simp [generate, h]
  · simp [generate]
  · simp [generate]
  · simp [try_llm_generate]
  · cases key <;> simp [try_llm_generate]
  · intro s hs
    cases key <;> simp [try_llm_generate, hs]

/-- C5 witness: a configured backend returning whitespace-only text is
discarded and the standard draft falls back to the template phrase. -/
theorem C5_backend_failure_silent_fallback_witness :
    try_llm_generate true (some "   \n ") = none
    ∧ (generate true (some "   \n ") (some "gpt-4o-mini") {}).1.meta_llm_used = false :=
  ⟨by decide,
   (C5_backend_failure_silent_fallback true (some "   \n ") (some "gpt-4o-mini") {}
     (by decide)).2.2.1⟩

/-- C6: with no backend configured, `POST /generate` with
summary "X", severity "SEV2", stage "initial" reports backend-used
false, a standard draft containing the literal fallback phrase, and a
statuspage export starting with "Service Degradation – Update". -/
theorem C6_backend_unavailable_scenario :
    (generate false none none
        { summary := some "X", severity := some "SEV2", stage := some "initial" }).1.meta_llm_used = false
    ∧ hasSubList "We will provide further details as they are verified.".data
        (generate false none none
          { summary := some "X", severity := some "SEV2", stage := some "initial" }).1.drafts_standard.data = true
    ∧ headSubList "Service Degradation – Update".data
        (generate false none none
          { summary := some "X", severity := some "SEV2", stage := some "initial" }).1.exports.statuspage.data = true := by
  exact ⟨by decide, by decide, by decide⟩

/-- C7, counterexample to the claim as stated: a caller-supplied
`next_update` override of `""` does not win and is not passed through
unmodified — Python's falsy `or` replaces it with the SEV1 cadence. -/
theorem C7_counterexample :
    (generate false none none
        { severity := some "SEV1", next_update := some "" }).1.meta_next_update = "30 minutes"
    ∧ ("30 minutes" : String) ≠ "" := by
  exact ⟨by decide, by decide⟩

/-- C7 (amended): a non-empty `next_update` override always wins and is
passed through unmodified; a missing or empty-string override falls back
to the severity cadence, which is case-insensitive (SEV1 30 minutes,
SEV2 60 minutes, SEV3 2 hours, SEV4 daily or on meaningful change) and
defaults to "60 minutes" on unknown or missing severities. -/
theorem C7_next_update_resolution (key : Bool) (bt model : Option String) (p : Payload) :
    (∀ s : String, p.next_update = some s → s ≠ "" →
        (generate key bt model p).1.meta_next_update = s)
    ∧ (p.next_update = none ∨ p.next_update = some "" →
        (generate key bt model p).1.meta_next_update
          = default_cadence (p.severity.getD "SEV3"))
    ∧ (∀ a b : String, pyUpper a = pyUpper b → default_cadence a = default_cadence b)
    ∧ default_cadence "SEV1" = "30 minutes"
    ∧ default_cadence "sev2" = "60 minutes"
    ∧ default_cadence "SEV3" = "2 hours"
    ∧ default_cadence "sev4" = "daily or on meaningful change"
    ∧ default_cadence "SEV9" = "60 minutes"
    ∧ default_cadence "" = "60 minutes" := by
  refine ⟨?_, ?_, ?_, by decide, by decide, by decide, by decide, by decide, by decide⟩
  · intro s hs hne
    simp [generate, pyOr, hs, hne]
  · rintro (hn | hn) <;> simp [generate, pyOr, hn]
  · intro a b hab
    simp [default_cadence, hab]

/-- C7 witness: a non-empty override "45 min" is passed through as is. -/
theorem C7_next_update_resolution_witness :
    ("45 min" : String) ≠ ""
    ∧ (generate false none none
        { severity := some "SEV1", next_update := some "45 min" }).1.meta_next_update = "45 min" :=
  ⟨by decide,
   (C7_next_update_resolution false none none
     { severity := some "SEV1", next_update := some "45 min" }).1 "45 min" rfl (by decide)⟩

/-- C8, counterexample to the claim as stated: after `generate` runs on a
payload whose summary is "ip 1.2.3.4", the payload's summary field holds
the sanitized text, not the caller's original — the handler assigns
`payload[f] = redacted["text"]` in place instead of working on a copy. -/
theorem C8_counterexample :
    (generate false none none { summary := some "ip 1.2.3.4" }).2.summary
      = some "ip [redacted-ip]"
    ∧ ((some "ip [redacted-ip]" : Option String) ≠ some "ip 1.2.3.4") := by
  exact ⟨by decide, by decide⟩

/-- C8 (amended): `generate` mutates exactly the summary and impact fields
of the request payload, overwriting them with the sanitized texts; every
other field of the payload is left unchanged, and no cross-request state
exists in the model. -/
theorem C8_payload_mutation_frame (key : Bool) (bt model : Option String) (p : Payload) :
    (generate key bt model p).2
      = { p with summary := some (sanitize_text (p.summary.getD "")).text,
                 impact := some (sanitize_text (p.impact.getD "")).text } := by
  rfl

/-- C9: for every stage, draft text and next-update value the statuspage
export is at most 2000 characters (a hard character cut), while the email
export always carries the full concatenated content with no cap; in
particular a 3000-character draft yields a statuspage of exactly 2000
characters and an email of full length 3044. -/
theorem C9_exports_capping (st tx nu : String) :
    (format_templates st tx nu).statuspage.length ≤ 2000
    ∧ (format_templates st tx nu).email.data
        = (if st = "initial" then ("[Incident] Initial Notice" : String)
           else if st = "resolution" then "[Incident] Resolved"
           else "[Incident] Update").data
          ++ ['\n', '\n'] ++ tx.data ++ ['\n', '\n'] ++ ("Next update: " ++ nu).data
    ∧ (format_templates "ongoing" (String.mk (List.replicate 3000 'x')) "60 minutes").statuspage.length = 2000
    ∧ (format_templates "ongoing" (String.mk (List.replicate 3000 'x')) "60 minutes").email.length = 3044 := by
  refine ⟨?_, format_templates_email_data st tx nu, ?_, ?_⟩
  · show (List.take 2000 _).length ≤ 2000
    rw [List.length_take]
    exact min_le_left _ _
  · show ((format_templates "ongoing" (String.mk (List.replicate 3000 'x')) "60 minutes").statuspage.data).length = 2000
    rw [format_templates_statuspage_data,
      if_neg (by decide : ¬ ("ongoing" : String) = "initial"),
      if_neg (by decide : ¬ ("ongoing" : String) = "resolution"),
      List.length_take]
    have h1 : ("Incident Update – Progress" : String).data.length = 26 := by decide
    have h2 : (("Next update: " ++ "60 minutes" : String)).data.length = 23 := by decide
    have h3 : (String.mk (List.replicate 3000 'x')).data.length = 3000 := by
      rw [show (String.mk (List.replicate 3000 'x')).data = List.replicate 3000 'x' from rfl,
        List.length_replicate]
    simp only [List.length_append, h1, h2, h3, List.length_cons, List.length_nil]
    omega
  · show ((format_templates "ongoing" (String.mk (List.replicate 3000 'x')) "60 minutes").email.data).length = 3044
    rw [format_templates_email_data,
      if_neg (by decide : ¬ ("ongoing" : String) = "initial"),
      if_neg (by decide : ¬ ("ongoing" : String) = "resolution")]
    have h1 : ("[Incident] Update" : String).data.length = 17 := by decide
    have h2 : (("Next update: " ++ "60 minutes" : String)).data.length = 23 := by decide
    have h3 : (String.mk (List.replicate 3000 'x')).data.length = 3000 := by
      rw [show (String.mk (List.replicate 3000 'x')).data = List.replicate 3000 'x' from rfl,
        List.length_replicate]
    simp only [List.length_append, h1, h2, h3, List.length_cons, List.length_nil]

/-- C10, counterexample to the claim as stated: sanitizing
`"id:\n:Error: boom\nTOKEN123"` returns the text `"id:\nTOKEN123"`, and
re-running the Redactor on that output redacts a fresh internal-id match
and emits an additional note — the Redactor is not idempotent on its own
output. -/
theorem C10_counterexample :
    sanitize_text "id:\n:Error: boom\nTOKEN123"
      = { text := "id:\nTOKEN123", notes := [⟨"stack-trace-line", "removed"⟩] }
    ∧ sanitize_text "id:\nTOKEN123"
      = { text := "[redacted-id]", notes := [⟨"internal-id", "redacted"⟩] } := by
  exact ⟨by decide, by decide⟩

/-- C10 (amended): re-running the Redactor produces no additional notes —
and returns the text unchanged — on any text on which none of the four
rule patterns matches, no line is recognized by the stack-trace filter,
and splitting into lines and rejoining is the identity; first-run outputs
need not satisfy the first condition (see the counterexample), so
idempotence fails in general. -/
theorem C10_sanitize_noop_on_clean_text (t : String)
    (h1 : re_search ip_matcher t.data = false)
    (h2 : re_search email_matcher t.data = false)
    (h3 : re_search host_matcher t.data = false)
    (h4 : re_search internal_id_matcher t.data = false)
    (h5 : (splitlinesPy t.data).all (fun l => !stack_line_hit l) = true)
    (h6 : List.intercalate ['\n'] (splitlinesPy t.data) = t.data) :
    sanitize_text t = { text := t, notes := [] } := by
  rw [sanitize_text_eq]
  simp only [h1, h2, h3, h4, Bool.false_eq_true, if_false]
  have hall : ∀ l ∈ splitlinesPy t.data, !stack_line_hit l := by
    simpa [List.all_eq_true] using h5
  have hfil : (splitlinesPy t.data).filter (fun l => !stack_line_hit l) = splitlinesPy t.data :=
    List.filter_eq_self.mpr hall
  have hcnt : (splitlinesPy t.data).countP stack_line_hit = 0 := by
    rw [List.countP_eq_zero]
    intro a ha
    simpa using hall a ha
  rw [hfil, hcnt, h6]
  simp

/-- C10 witness: "hello [redacted-ip]" is the output of a first run on
"hello 1.2.3.4", and sanitizing it again changes nothing and adds no
note. -/
theorem C10_sanitize_noop_on_clean_text_witness :
    sanitize_text "hello 1.2.3.4"
      = { text := "hello [redacted-ip]", notes := [⟨"ip", "redacted"⟩] }
    ∧ sanitize_text "hello [redacted-ip]" = { text := "hello [redacted-ip]", notes := [] } :=
  ⟨by decide,
   C10_sanitize_noop_on_clean_text "hello [redacted-ip]"
     (by decide) (by decide) (by decide) (by decide) (by decide) (by decide)⟩

end AICA
